import Mathlib

/-!
# ago: replaying a diff summary against an editor window

A shallow embedding of `gofmt.go` (`parseSpan`, `findLines` and the replay loop of
`gofmt`), followed by theorems about the embedded functions.

Conventions of the embedding.
* A Go `string` / `[]byte` is a list of bytes; a byte is written as a `Char`, and the
  functions only ever compare bytes with ASCII constants.
* A Go `int` is an `Int` in the 64-bit range; arithmetic that can leave the range is
  wrapped with `wrapInt`.
* The editor window (`acme.Win`) is an abstract state machine `Win σ` with the two
  operations the loop uses, `Addr` and `Write("data", _)`, each returning the new window
  state and whether the call returned a nil error.
-/

namespace Ago

/-- Go strings and byte slices: a sequence of bytes. -/
abbrev Bytes := List Char

/-- The string literal `s` as bytes. -/
def str (s : String) : Bytes := s.toList

/-- Smallest value of a 64-bit Go `int`. -/
def minInt : Int := -9223372036854775808

/-- Largest value of a 64-bit Go `int`. -/
def maxInt : Int := 9223372036854775807

/-- Two's-complement wrap-around of Go's signed 64-bit `int` arithmetic. -/
def wrapInt (x : Int) : Int := (x + 9223372036854775808) % 18446744073709551616 - 9223372036854775808

/-! ## Library functions used by the source (Go standard library) -/

/-- Decimal digit test of `strconv`: the byte lies in `'0'..'9'`. -/
def isDigit (c : Char) : Bool := decide (48 ≤ c.toNat) && decide (c.toNat ≤ 57)

/-- Value of a decimal digit byte (`ch - '0'`). -/
def digitVal (c : Char) : Nat := c.toNat - 48

/-- Digit loop of `strconv.Atoi` / `ParseUint` in base 10: `n = n*10 + d` for every byte,
failing on the first byte that is not a decimal digit. -/
def parseDigits : Bytes → Nat → Option Nat
  | [], n => some n
  | c :: cs, n => if isDigit c then parseDigits cs (n * 10 + digitVal c) else none

/-- Go's `strconv.Atoi` for a 64-bit `int`: an optional sign `+` or `-`, then at least one
decimal digit and nothing else; a value outside the `int` range is an error.  `none` stands
for a non-nil error (the accompanying value is never used by the callers here). -/
def Atoi (s : Bytes) : Option Int :=
  match s with
  | [] => none
  | c :: rest =>
    let ds := if c = '-' ∨ c = '+' then rest else s
    if ds = [] then none
    else
      match parseDigits ds 0 with
      | none => none
      | some n =>
        if c = '-' then
          if n ≤ 9223372036854775808 then some (-(n : Int)) else none
        else
          if n < 9223372036854775808 then some (n : Int) else none

/-- Go's `strings.Index(s, sep)` for a one-byte separator: index of its first occurrence,
or `-1` when it does not occur. -/
def Index : Bytes → Char → Int
  | [], _ => -1
  | c :: cs, sep => if c = sep then 0 else if Index cs sep < 0 then -1 else Index cs sep + 1

/-- Go's `strings.Split(s, sep)` for a one-byte separator: all pieces between separators,
empty pieces included (so the result is never empty). -/
def Split : Bytes → Char → List Bytes
  | [], _ => [[]]
  | c :: cs, sep =>
    if c = sep then [] :: Split cs sep
    else
      match Split cs sep with
      | [] => [[c]]
      | l :: ls => (c :: l) :: ls

/-- Go's `strconv.Itoa` / the `%d` verb: the decimal token of an integer. -/
def Itoa (n : Int) : Bytes :=
  if n < 0 then '-' :: Nat.toDigits 10 n.natAbs else Nat.toDigits 10 n.natAbs

/-! ## `parseSpan` (gofmt.go, lines 108-125) -/

/-- Embedding of `parseSpan`. The logging calls have no effect on the result. -/
def parseSpan (text : Bytes) : Int × Int :=
  let i := Index text ','
  if i < 0 then
    match Atoi text with
    | none => (0, 0)
    | some n => (n, n)
  else
    match Atoi (text.take i.toNat), Atoi (text.drop (i.toNat + 1)) with
    | some start, some end_ => (start, end_)
    | _, _ => (0, 0)

/-! ## `findLines` (gofmt.go, lines 127-145) -/

/-- First loop of `findLines`: `rest` is `text[i:]`; returns the final `i` and `end`. -/
def findLines.loop1 : Bytes → Nat → Int → Int → Nat × Int
  | [], i, _, end_ => (i, end_)
  | c :: rest, i, start, end_ =>
    if 0 < start then
      if c = '\n' then findLines.loop1 rest (i + 1) (wrapInt (start - 1)) (wrapInt (end_ - 1))
      else findLines.loop1 rest (i + 1) start end_
    else (i, end_)

/-- Second loop of `findLines`: `rest` is `text[i:]`; returns the final `i`. -/
def findLines.loop2 : Bytes → Nat → Int → Nat
  | [], i, _ => i
  | c :: rest, i, end_ =>
    if 0 < end_ then
      if c = '\n' then findLines.loop2 rest (i + 1) (wrapInt (end_ - 1))
      else findLines.loop2 rest (i + 1) end_
    else i

/-- Embedding of `findLines`: the slice `text[startByte:endByte]`. -/
def findLines (text : Bytes) (start end_ : Int) : Bytes :=
  let start1 := wrapInt (start - 1)
  let r := findLines.loop1 text 0 start1 end_
  let startByte := r.1
  let endByte := findLines.loop2 (text.drop startByte) startByte r.2
  (text.take endByte).drop startByte


/-! ## The editor window and the replay loop of `gofmt` (gofmt.go, lines 59-105) -/

/-- The two address formats the loop passes to `w.Addr`. -/
inductive Address
  /-- Format `"%d+#0"`: the zero-width point immediately after line `n`. -/
  | after (n : Int)
  /-- Format `"%d,%d"`: the line range `a` through `b`. -/
  | lines (a b : Int)
deriving DecidableEq, Repr

/-- The window as the loop sees it: `Addr` sets the edit point, `Write` is
`w.Write("data", b)`. Each returns the new window state and `true` for a nil error. -/
structure Win (σ : Type) where
  /-- Method `w.Addr(format, args...)`. -/
  Addr : Address → σ → σ × Bool
  /-- Method `w.Write("data", b)`. -/
  Write : Bytes → σ → σ × Bool

/-- An operation issued to the window. -/
inductive Op
  /-- A call of `w.Addr`. -/
  | addr (a : Address)
  /-- A call of `w.Write("data", b)`. -/
  | data (b : Bytes)
deriving DecidableEq, Repr

/-- The window `W` with a record of every operation issued to it, oldest first. -/
def Win.logged {σ : Type} (W : Win σ) : Win (σ × List Op) where
  Addr a s := (((W.Addr a s.1).1, s.2 ++ [Op.addr a]), (W.Addr a s.1).2)
  Write b s := (((W.Write b s.1).1, s.2 ++ [Op.data b]), (W.Write b s.1).2)

/-- A window without state on which every operation succeeds. -/
def Win.null : Win Unit where
  Addr _ s := (s, true)
  Write _ s := (s, true)

/-- The operator scan `for j < len(line) && line[j] != 'a' && line[j] != 'c' && line[j] != 'd'`:
`rest` is `line[j:]`; returns the final `j`. -/
def scanOp : Bytes → Nat → Nat
  | [], j => j
  | c :: rest, j => if c ≠ 'a' ∧ c ≠ 'c' ∧ c ≠ 'd' then scanOp rest (j + 1) else j

/-- One iteration of the loop body on `line`. The result is the window state and `true`
when the loop goes on to the next line (`continue` or the end of the body), `false` when
the body executed `return false`. -/
def gofmt.replayLine {σ : Type} (W : Win σ) (new : Bytes) (line : Bytes) (s : σ) : σ × Bool :=
  if line = [] then (s, true)
  else if line.head? = some '<' ∨ line.head? = some '-' ∨ line.head? = some '>' then (s, true)
  else
    let j := scanOp line 0
    if j ≥ line.length then (s, false)
    else
      let old := parseSpan (line.take j)
      let nw := parseSpan (line.drop (j + 1))
      if old.1 = 0 ∨ nw.1 = 0 then (s, true)
      else
        match line.get? j with
        | some 'a' =>
          let r := W.Addr (Address.after old.1) s
          if r.2 then ((W.Write (findLines new nw.1 nw.2) r.1).1, true) else (r.1, false)
        | some 'c' =>
          let r := W.Addr (Address.lines old.1 old.2) s
          if r.2 then ((W.Write (findLines new nw.1 nw.2) r.1).1, true) else (r.1, false)
        | some 'd' =>
          let r := W.Addr (Address.lines old.1 old.2) s
          if r.2 then ((W.Write [] r.1).1, true) else (r.1, false)
        | _ => (s, true)

/-- The loop `for i := len(diffLines) - 1; i >= 0; i--`, with `n = i + 1` lines still to
process; falling out of the loop is `return true`. -/
def gofmt.replayLoop {σ : Type} (W : Win σ) (new : Bytes) (diffLines : List Bytes) : Nat → σ → σ × Bool
  | 0, s => (s, true)
  | i + 1, s =>
    let r := gofmt.replayLine W new (diffLines.getD i []) s
    if r.2 then gofmt.replayLoop W new diffLines i r.1 else (r.1, false)

/-- The replay part of `gofmt`: split the diff summary into lines and run the loop. The
result is the final window state and the value `gofmt` returns. -/
def gofmt.replay {σ : Type} (W : Win σ) (new : Bytes) (diff : Bytes) (s : σ) : σ × Bool :=
  let diffLines := Split diff '\n'
  gofmt.replayLoop W new diffLines diffLines.length s

/-- The operations `gofmt.replay` issues to the window `W` started in state `s`, in order. -/
def trace {σ : Type} (W : Win σ) (new : Bytes) (diff : Bytes) (s : σ) : List Op :=
  (gofmt.replay W.logged new diff (s, [])).1.2

/-! ## Particular windows and the loop body over a list of lines -/

/-- A window on which setting the address succeeds and every write reports an error. -/
def Win.writeFails : Win Unit where
  Addr _ s := (s, true)
  Write _ s := (s, false)

/-- A window on which every attempt to set the address reports an error. -/
def Win.addrFails : Win Unit where
  Addr _ s := (s, false)
  Write _ s := (s, true)

/-- The window `W` with the error of every write replaced by success. -/
def Win.writeOk {σ : Type} (W : Win σ) : Win σ where
  Addr := W.Addr
  Write b s := ((W.Write b s).1, true)

/-- The loop body run over the lines in the order the loop visits them. -/
def runLines {σ : Type} (W : Win σ) (new : Bytes) : List Bytes → σ → σ × Bool
  | [], s => (s, true)
  | line :: rest, s =>
    if (gofmt.replayLine W new line s).2 then runLines W new rest (gofmt.replayLine W new line s).1
    else ((gofmt.replayLine W new line s).1, false)

/-! ## Specification-side definitions -/

/-- A directive line of a diff summary: non-empty and not beginning with `<`, `-` or `>`. -/
def isDirective (line : Bytes) : Bool :=
  match line with
  | [] => false
  | c :: _ => decide (c ≠ '<' ∧ c ≠ '-' ∧ c ≠ '>')

/-- One of the operator bytes `a`, `c`, `d`. -/
def isOp (c : Char) : Bool := decide (c = 'a' ∨ c = 'c' ∨ c = 'd')

/-- The line contains an operator. -/
def hasOp (line : Bytes) : Bool := line.any isOp

/-- Text before the first operator of a directive line. -/
def oldText (line : Bytes) : Bytes := line.takeWhile (fun c => !isOp c)

/-- Text after the first operator of a directive line. -/
def newText (line : Bytes) : Bytes := (line.dropWhile (fun c => !isOp c)).tail

/-- The first operator of a directive line. -/
def opOf (line : Bytes) : Option Char := (line.dropWhile (fun c => !isOp c)).head?

/-- The address an operator selects for the old span `(start, end)`. -/
def addressOf (op : Char) (old : Int × Int) : Address :=
  if op = 'a' then Address.after old.1 else Address.lines old.1 old.2

/-- The bytes an operator writes for the new span `(start, end)`. -/
def contentOf (op : Char) (new : Bytes) (nw : Int × Int) : Bytes :=
  if op = 'd' then [] else findLines new nw.1 nw.2

/-- The buffer edit a directive line stands for: nothing when the start of either span
is 0, else one address followed by one write. -/
def translate (new : Bytes) (line : Bytes) : List Op :=
  match opOf line with
  | none => []
  | some op =>
    if (parseSpan (oldText line)).1 = 0 ∨ (parseSpan (newText line)).1 = 0 then []
    else [Op.addr (addressOf op (parseSpan (oldText line))),
          Op.data (contentOf op new (parseSpan (newText line)))]

/-- The edits of a list of directive lines, in the order of the list. -/
def translateAll (new : Bytes) : List Bytes → List Op
  | [] => []
  | line :: rest => translate new line ++ translateAll new rest

/-- The old-text line numbers at which the addresses of a record of operations start. -/
def editStarts : List Op → List Int
  | [] => []
  | Op.addr (Address.after n) :: rest => n :: editStarts rest
  | Op.addr (Address.lines a _) :: rest => a :: editStarts rest
  | Op.data _ :: rest => editStarts rest

/-- Value of a run of decimal digits, most significant first. -/
def decimalVal (ds : Bytes) : Nat := ds.foldl (fun n c => n * 10 + digitVal c) 0

/-- A decimal token: an optional sign `-` or `+` followed by one or more decimal digits. -/
def isToken : Bytes → Bool
  | [] => false
  | c :: rest =>
    if c = '-' ∨ c = '+' then !rest.isEmpty && rest.all isDigit else (c :: rest).all isDigit

/-- The integer a decimal token denotes. -/
def tokenVal : Bytes → Int
  | [] => 0
  | c :: rest =>
    if c = '-' then -(decimalVal rest : Int)
    else if c = '+' then (decimalVal rest : Int)
    else (decimalVal (c :: rest) : Int)

/-- A decimal token whose value is a Go `int`. -/
def isIntToken (s : Bytes) : Bool :=
  isToken s && decide (minInt ≤ tokenVal s) && decide (tokenVal s ≤ maxInt)

/-- A malformed span text: neither an integer token nor two integer tokens around a comma. -/
def Malformed (text : Bytes) : Prop :=
  isIntToken text = false ∧
    ∀ l r : Bytes, text = l ++ ',' :: r → ¬ (isIntToken l = true ∧ isIntToken r = true)

/-- The lines of a text as the specification words them: the successive pieces that each
end at a line feed, plus any non-empty unterminated remainder as a final line. -/
def textLines : Bytes → List Bytes
  | [] => []
  | c :: cs =>
    if c = '\n' then ['\n'] :: textLines cs
    else
      match textLines cs with
      | [] => [[c]]
      | l :: ls => (c :: l) :: ls

/-- Concatenation of those lines of `ls` whose number lies in `start..end_`, the first
line of `ls` having number `n`. -/
def pickLines : List Bytes → Int → Int → Int → Bytes
  | [], _, _, _ => []
  | l :: ls, n, start, end_ =>
    (if start ≤ n ∧ n ≤ end_ then l else []) ++ pickLines ls (n + 1) start end_

/-- Concatenation of lines `start` through `end_` of `text`, lines numbered from 1. -/
def linesRange (text : Bytes) (start end_ : Int) : Bytes :=
  pickLines (textLines text) 1 start end_

/-- Byte offset just after the first `n` lines of `text`, when it has that many lines. -/
def lineEnd (text : Bytes) (n : Nat) : Option Nat :=
  if n ≤ (textLines text).length then some ((textLines text).take n).flatten.length else none

/-- A text buffer with a selection, the bytes from offset `q0` up to offset `q1`. -/
structure Buffer where
  /-- The bytes of the buffer. -/
  text : Bytes
  /-- Start of the selection. -/
  q0 : Nat
  /-- End of the selection. -/
  q1 : Nat
deriving DecidableEq, Repr

/-- A line buffer as a window, after the buffer-edit sink of the specification: an address
selects the zero-width point after a line or a range of whole lines and is an error when
the lines do not exist; a write replaces the selection. -/
def Win.buffer : Win Buffer where
  Addr a b :=
    match a with
    | Address.after n =>
      if 0 ≤ n then
        match lineEnd b.text n.toNat with
        | some q => (Buffer.mk b.text q q, true)
        | none => (b, false)
      else (b, false)
    | Address.lines x y =>
      if 1 ≤ x ∧ x ≤ y then
        match lineEnd b.text (x.toNat - 1), lineEnd b.text y.toNat with
        | some p, some q => (Buffer.mk b.text p q, true)
        | _, _ => (b, false)
      else (b, false)
  Write bytes b :=
    (Buffer.mk (b.text.take b.q0 ++ bytes ++ b.text.drop b.q1) (b.q0 + bytes.length)
      (b.q0 + bytes.length), true)

/-! ## `findLines` extracts exactly the requested lines -/

/-! The lines of a text, as `textLines` gives them, are what the specification says they
are: their concatenation is the text, no line is empty, a line feed occurs in a line only
as its last byte, and every line but the last ends with one. -/

theorem textLines_join (t : Bytes) : (textLines t).flatten = t := by
  induction t with
  | nil => rfl
  | cons c cs ih =>
    by_cases hc : c = '\n'
    · simp [textLines, hc, ih]
    · simp only [textLines, if_neg hc]
      cases h : textLines cs with
      | nil =>
        rw [h] at ih
        simp at ih
        simp [← ih]
      | cons l ls =>
        rw [h] at ih
        simp at ih
        simp [ih]

theorem textLines_line (t : Bytes) :
    ∀ l ∈ textLines t, l ≠ [] ∧ ∀ c ∈ l.dropLast, c ≠ '\n' := by
  induction t with
  | nil => simp [textLines]
  | cons c cs ih =>
    by_cases hc : c = '\n'
    · intro l hl
      simp only [textLines, hc, if_true, List.mem_cons] at hl
      rcases hl with e | hl
      · subst e; simp
      · exact ih l hl
    · simp only [textLines, if_neg hc]
      cases h : textLines cs with
      | nil => intro l hl; simp at hl; subst hl; simp
      | cons l0 ls =>
        rw [h] at ih
        intro l hl
        simp only [List.mem_cons] at hl
        rcases hl with e | hl
        · subst e
          have h0 := ih l0 (by simp)
          refine ⟨by simp, ?_⟩
          intro d hd
          rw [List.dropLast_cons_of_ne_nil h0.1] at hd
          rcases List.mem_cons.1 hd with e | hd
          · rw [e]; exact hc
          · exact h0.2 d hd
        · exact ih l (by simp [hl])

theorem textLines_terminated (t : Bytes) :
    ∀ l ∈ (textLines t).dropLast, l.getLast? = some '\n' := by
  induction t with
  | nil => simp [textLines]
  | cons c cs ih =>
    by_cases hc : c = '\n'
    · simp only [textLines, hc, if_true]
      cases h : textLines cs with
      | nil => simp
      | cons l0 ls =>
        rw [h] at ih
        intro l hl
        rw [List.dropLast_cons_of_ne_nil (by simp)] at hl
        rcases List.mem_cons.1 hl with e | hl
        · subst e; rfl
        · exact ih l hl
    · simp only [textLines, if_neg hc]
      cases h : textLines cs with
      | nil => simp
      | cons l0 ls =>
        rw [h] at ih
        have hne : l0 ≠ [] := (textLines_line cs l0 (by simp [h])).1
        cases ls with
        | nil => simp
        | cons l1 ls =>
          intro l hl
          rw [List.dropLast_cons_of_ne_nil (by simp)] at hl ih
          rcases List.mem_cons.1 hl with e | hl
          · subst e
            have h0 := ih l0 (by simp)
            cases l0 with
            | nil => exact absurd rfl hne
            | cons d ds => rw [List.getLast?_cons_cons]; exact h0
          · exact ih l (by simp [hl])

theorem wrapInt_of_range (x : Int) (h1 : -9223372036854775808 ≤ x) (h2 : x ≤ 9223372036854775807) :
    wrapInt x = x := by
  unfold wrapInt
  omega

theorem pickLines_textLines_nl (rest : Bytes) (n a b : Int) :
    pickLines (textLines ('\n' :: rest)) n a b =
      (if a ≤ n ∧ n ≤ b then ['\n'] else []) ++ pickLines (textLines rest) (n + 1) a b := by
  simp [textLines, pickLines]

theorem pickLines_textLines_byte (c : Char) (rest : Bytes) (n a b : Int) (hc : c ≠ '\n') :
    pickLines (textLines (c :: rest)) n a b =
      (if a ≤ n ∧ n ≤ b then [c] else []) ++ pickLines (textLines rest) n a b := by
  simp only [textLines, if_neg hc]
  cases h : textLines rest with
  | nil => simp [pickLines]
  | cons l ls =>
    simp only [pickLines]
    by_cases hr : a ≤ n ∧ n ≤ b <;> simp [hr]

theorem loop1_ge (rest : Bytes) : ∀ (i : Nat) (s e : Int), i ≤ (findLines.loop1 rest i s e).1 := by
  induction rest with
  | nil => intro i s e; simp [findLines.loop1]
  | cons c rest ih =>
    intro i s e
    simp only [findLines.loop1]
    split
    · split
      · exact Nat.le_trans (Nat.le_succ i) (ih _ _ _)
      · exact Nat.le_trans (Nat.le_succ i) (ih _ _ _)
    · exact Nat.le_refl i

theorem loop2_ge (rest : Bytes) : ∀ (i : Nat) (e : Int), i ≤ findLines.loop2 rest i e := by
  induction rest with
  | nil => intro i e; simp [findLines.loop2]
  | cons c rest ih =>
    intro i e
    simp only [findLines.loop2]
    split
    · split
      · exact Nat.le_trans (Nat.le_succ i) (ih _ _)
      · exact Nat.le_trans (Nat.le_succ i) (ih _ _)
    · exact Nat.le_refl i

/-- Second loop: started at the first byte of line `n` with `a ≤ n` and the countdown at
`b - n + 1`, it stops right after the last byte of line `b`. -/
theorem loop2_spec (a b : Int) (hb : b ≤ 9223372036854775807) (rest : Bytes) :
    ∀ (i : Nat) (n : Int), 1 ≤ n → a ≤ n →
      rest.take (findLines.loop2 rest i (b - n + 1) - i) = pickLines (textLines rest) n a b := by
  induction rest with
  | nil => intro i n _ _; simp [findLines.loop2, textLines, pickLines]
  | cons c rest ih =>
    intro i n h1 han
    simp only [findLines.loop2]
    by_cases hpos : 0 < b - n + 1
    · have hin : a ≤ n ∧ n ≤ b := ⟨han, by omega⟩
      have hw : wrapInt (b - n + 1 - 1) = b - (n + 1) + 1 := by
        rw [wrapInt_of_range _ (by omega) (by omega)]; omega
      by_cases hc : c = '\n'
      · subst hc
        rw [if_pos hpos, if_pos rfl, hw, pickLines_textLines_nl, if_pos hin]
        have hge := loop2_ge rest (i + 1) (b - (n + 1) + 1)
        have hsub : findLines.loop2 rest (i + 1) (b - (n + 1) + 1) - i =
            (findLines.loop2 rest (i + 1) (b - (n + 1) + 1) - (i + 1)) + 1 := by omega
        rw [hsub, List.take_succ_cons, ih (i + 1) (n + 1) (by omega) (by omega)]
        rfl
      · rw [if_pos hpos, if_neg hc, pickLines_textLines_byte c rest n a b hc, if_pos hin]
        have hge := loop2_ge rest (i + 1) (b - n + 1)
        have hsub : findLines.loop2 rest (i + 1) (b - n + 1) - i =
            (findLines.loop2 rest (i + 1) (b - n + 1) - (i + 1)) + 1 := by omega
        rw [hsub, List.take_succ_cons, ih (i + 1) n h1 han]
        rfl
    · rw [if_neg hpos]
      have hout : ¬ (a ≤ n ∧ n ≤ b) := by omega
      have hnone : ∀ (ls : List Bytes) (m : Int), n ≤ m → pickLines ls m a b = [] := by
        intro ls
        induction ls with
        | nil => intro m _; rfl
        | cons l ls ihl =>
          intro m hm
          have hm2 : ¬ (a ≤ m ∧ m ≤ b) := by omega
          simp only [pickLines, if_neg hm2, List.nil_append]
          exact ihl (m + 1) (by omega)
      rw [hnone _ n (le_refl n)]
      simp

/-- Both loops together: started at the first byte of line `n ≤ a` with the countdowns at
`a - n` and `b - n + 1`, the slice between the two final indices is lines `a..b`. -/
theorem loops_spec (a b : Int) (ha : a ≤ 9223372036854775807) (hb : b ≤ 9223372036854775807)
    (hab : -9223372036854775808 ≤ b - (a - 1)) (rest : Bytes) :
    ∀ (i : Nat) (n : Int), 1 ≤ n → n ≤ a →
      ((rest.take (findLines.loop2 (rest.drop ((findLines.loop1 rest i (a - n) (b - n + 1)).1 - i))
          (findLines.loop1 rest i (a - n) (b - n + 1)).1
          (findLines.loop1 rest i (a - n) (b - n + 1)).2 - i)).drop
        ((findLines.loop1 rest i (a - n) (b - n + 1)).1 - i))
      = pickLines (textLines rest) n a b := by
  induction rest with
  | nil => intro i n _ _; simp [findLines.loop1, findLines.loop2, textLines, pickLines]
  | cons c rest ih =>
    intro i n h1 hna
    by_cases hpos : 0 < a - n
    · have hout : ¬ (a ≤ n ∧ n ≤ b) := by omega
      have hw1 : wrapInt (a - n - 1) = a - (n + 1) := by
        rw [wrapInt_of_range _ (by omega) (by omega)]; omega
      have hw2 : wrapInt (b - n + 1 - 1) = b - (n + 1) + 1 := by
        rw [wrapInt_of_range _ (by omega) (by omega)]; omega
      by_cases hc : c = '\n'
      · subst hc
        simp only [findLines.loop1, if_pos hpos, if_true, hw1, hw2]
        rw [pickLines_textLines_nl, if_neg hout, List.nil_append, ← ih (i + 1) (n + 1) (by omega) (by omega)]
        generalize hr : findLines.loop1 rest (i + 1) (a - (n + 1)) (b - (n + 1) + 1) = r
        have hge1 : i + 1 ≤ r.1 := by rw [← hr]; exact loop1_ge _ _ _ _
        have hd : r.1 - i = (r.1 - (i + 1)) + 1 := by omega
        rw [hd, List.drop_succ_cons]
        have hge2 := loop2_ge (List.drop (r.1 - (i + 1)) rest) r.1 r.2
        have ht : findLines.loop2 (List.drop (r.1 - (i + 1)) rest) r.1 r.2 - i =
            (findLines.loop2 (List.drop (r.1 - (i + 1)) rest) r.1 r.2 - (i + 1)) + 1 := by omega
        rw [ht, List.take_succ_cons, List.drop_succ_cons]
      · simp only [findLines.loop1, if_pos hpos, if_neg hc]
        rw [pickLines_textLines_byte c rest n a b hc, if_neg hout, List.nil_append, ← ih (i + 1) n h1 hna]
        generalize hr : findLines.loop1 rest (i + 1) (a - n) (b - n + 1) = r
        have hge1 : i + 1 ≤ r.1 := by rw [← hr]; exact loop1_ge _ _ _ _
        have hd : r.1 - i = (r.1 - (i + 1)) + 1 := by omega
        rw [hd, List.drop_succ_cons]
        have hge2 := loop2_ge (List.drop (r.1 - (i + 1)) rest) r.1 r.2
        have ht : findLines.loop2 (List.drop (r.1 - (i + 1)) rest) r.1 r.2 - i =
            (findLines.loop2 (List.drop (r.1 - (i + 1)) rest) r.1 r.2 - (i + 1)) + 1 := by omega
        rw [ht, List.take_succ_cons, List.drop_succ_cons]
    · have hn : n = a := by omega
      subst hn
      simp only [findLines.loop1, if_neg hpos, Nat.sub_self, List.drop_zero]
      exact loop2_spec n b hb (c :: rest) i n h1 (le_refl n)

set_option maxRecDepth 4000 in
/-- C1 as stated fails: with `start = 2` and `end` the smallest `int`, `end < start`, yet
the countdown of `end` wraps around at the first line feed and `findLines` returns lines 2
and 3 of `"a\nb\nc\n"` instead of the empty slice; the loop passes that span to
`findLines` on the directive line `1c2,-9223372036854775808`. -/
theorem findLines_end_wraps :
    minInt < 2 ∧
    linesRange (str "a\nb\nc\n") 2 minInt = [] ∧
    findLines (str "a\nb\nc\n") 2 minInt = str "b\nc\n" ∧
    findLines (str "a\nb\nc\n") 2 minInt ≠ [] ∧
    parseSpan (str "2,-9223372036854775808") = (2, minInt) ∧
    trace Win.null (str "a\nb\nc\n") (str "1c2,-9223372036854775808\n") () =
      [Op.addr (Address.lines 1 1), Op.data (str "b\nc\n")] := by
  decide

/-- C1, as the code has it. For every text and every span of Go `int` values with
`start ≥ 1` whose `end` is not within `start - 1` of the smallest `int` (so that the
countdown of `end` does not wrap around), `findLines` returns exactly the concatenation of
lines `start` through `end`, where the lines of a text are the pieces ending at a line feed
plus a non-empty unterminated remainder; in particular the three spans on `"a\nb\nc\n"`. -/
theorem findLines_eq_linesRange :
    (∀ (text : Bytes) (start end_ : Int), 1 ≤ start → start ≤ maxInt → end_ ≤ maxInt →
        minInt ≤ end_ - (start - 1) →
        findLines text start end_ = linesRange text start end_) ∧
    findLines (str "a\nb\nc\n") 2 2 = str "b\n" ∧
    findLines (str "a\nb\nc\n") 1 3 = str "a\nb\nc\n" ∧
    findLines (str "a\nb\nc\n") 2 3 = str "b\nc\n" := by
  refine ⟨?_, by decide, by decide, by decide⟩
  intro text start end_ h1 h2 h3 h4
  unfold maxInt at h2 h3
  unfold minInt at h4
  have hw : wrapInt (start - 1) = start - 1 := wrapInt_of_range _ (by omega) (by omega)
  have key := loops_spec start end_ h2 h3 h4 text 0 1 (le_refl 1) h1
  simp only [Nat.sub_zero, add_sub_cancel_right] at key
  have e1 : end_ - 1 + 1 = end_ := by omega
  rw [e1] at key
  simp only [findLines, linesRange, hw]
  exact key

/-- C1 at a text with a blank line, inner blanks and an unterminated last line. -/
theorem findLines_eq_linesRange_witness :
    findLines (str "a\n\nb c \nd") 2 4 = linesRange (str "a\n\nb c \nd") 2 4 ∧
    linesRange (str "a\n\nb c \nd") 2 4 = str "\nb c \nd" :=
  ⟨findLines_eq_linesRange.1 (str "a\n\nb c \nd") 2 4 (by decide) (by decide) (by decide)
    (by decide), by decide⟩

/-! ## `strconv.Atoi`, `strings.Index` and `parseSpan` -/

theorem parseDigits_eq (ds : Bytes) : ∀ n : Nat,
    parseDigits ds n =
      if ds.all isDigit = true then some (ds.foldl (fun n c => n * 10 + digitVal c) n) else none := by
  induction ds with
  | nil => intro n; simp [parseDigits]
  | cons c cs ih =>
    intro n
    by_cases hc : isDigit c = true
    · simp [parseDigits, hc, ih]
    · simp [parseDigits, hc]

/-- The model of `Atoi` accepts exactly the decimal tokens whose value is a Go `int`, and
returns that value. -/
theorem Atoi_eq (s : Bytes) :
    Atoi s = if isIntToken s = true then some (tokenVal s) else none := by
  cases s with
  | nil => simp [Atoi, isIntToken, isToken]
  | cons c rest =>
    by_cases hm : c = '-'
    · subst hm
      cases rest with
      | nil => simp [Atoi, isIntToken, isToken]
      | cons d ds =>
        simp only [Atoi, true_or, if_true, isIntToken, isToken, tokenVal, decimalVal, minInt, maxInt,
          parseDigits_eq, List.isEmpty_cons, Bool.not_false, Bool.true_and, Bool.and_eq_true,
          decide_eq_true_eq]
        by_cases hall : (d :: ds).all isDigit = true
        · simp only [hall, if_true, reduceCtorEq, if_false, true_and]
          by_cases hle : List.foldl (fun n c => n * 10 + digitVal c) 0 (d :: ds) ≤ 9223372036854775808
          · rw [if_pos hle, if_pos (by omega)]
          · rw [if_neg hle, if_neg (by omega)]
        · simp [hall]
    · by_cases hp : c = '+'
      · subst hp
        cases rest with
        | nil => simp [Atoi, isIntToken, isToken]
        | cons d ds =>
          simp only [Atoi, or_true, if_true, isIntToken, isToken, tokenVal, decimalVal, minInt, maxInt,
            parseDigits_eq, List.isEmpty_cons, Bool.not_false, Bool.true_and, Bool.and_eq_true,
            decide_eq_true_eq]
          by_cases hall : (d :: ds).all isDigit = true
          · simp only [hall, if_true, reduceCtorEq, if_false, true_and, hm]
            by_cases hlt : List.foldl (fun n c => n * 10 + digitVal c) 0 (d :: ds) < 9223372036854775808
            · rw [if_pos hlt, if_pos (by omega)]
            · rw [if_neg hlt, if_neg (by omega)]
          · simp [hall]
      · simp only [Atoi, hm, hp, or_self, if_false, isIntToken, isToken, tokenVal, decimalVal, minInt,
          maxInt, parseDigits_eq, Bool.and_eq_true, decide_eq_true_eq, reduceCtorEq]
        by_cases hall : (c :: rest).all isDigit = true
        · simp only [hall, if_true, true_and]
          by_cases hlt : List.foldl (fun n c => n * 10 + digitVal c) 0 (c :: rest) < 9223372036854775808
          · rw [if_pos hlt, if_pos (by omega)]
          · rw [if_neg hlt, if_neg (by omega)]
        · simp [hall]

theorem Index_ge (s : Bytes) (sep : Char) : -1 ≤ Index s sep := by
  induction s with
  | nil => simp [Index]
  | cons c cs ih =>
    simp only [Index]
    split
    · omega
    · split <;> omega

theorem Index_le (s : Bytes) (sep : Char) : Index s sep ≤ s.length := by
  induction s with
  | nil => simp [Index]
  | cons c cs ih =>
    simp only [Index, List.length_cons]
    split
    · omega
    · split <;> omega

theorem Index_of_not_mem (s : Bytes) (sep : Char) (h : sep ∉ s) : Index s sep = -1 := by
  induction s with
  | nil => simp [Index]
  | cons c cs ih =>
    have hc : c ≠ sep := fun e => h (by simp [e])
    have hcs : sep ∉ cs := fun e => h (by simp [e])
    simp [Index, hc, ih hcs]

theorem Index_append (l r : Bytes) (sep : Char) (h : sep ∉ l) :
    Index (l ++ sep :: r) sep = l.length := by
  induction l with
  | nil => simp [Index]
  | cons c cs ih =>
    have hc : c ≠ sep := fun e => h (by simp [e])
    have hcs : sep ∉ cs := fun e => h (by simp [e])
    have hi := ih hcs
    have hnn : ¬ (Index (cs ++ sep :: r) sep < 0) := by omega
    show Index (c :: (cs ++ sep :: r)) sep = _
    simp only [Index, if_neg hc, if_neg hnn, hi, List.length_cons]
    push_cast
    rfl

theorem Index_split (s : Bytes) (sep : Char) (h : 0 ≤ Index s sep) :
    s = s.take (Index s sep).toNat ++ sep :: s.drop ((Index s sep).toNat + 1) := by
  induction s with
  | nil => simp [Index] at h
  | cons c cs ih =>
    by_cases hc : c = sep
    · simp [Index, hc]
    · have hge := Index_ge cs sep
      by_cases hneg : Index cs sep < 0
      · simp [Index, hc, hneg] at h
      · have h0 : 0 ≤ Index cs sep := by omega
        have e : (Index cs sep + 1).toNat = (Index cs sep).toNat + 1 := by omega
        simp only [Index, if_neg hc, if_neg hneg, e, List.take_succ_cons, List.drop_succ_cons,
          List.cons_append]
        rw [← ih h0]

theorem isDigit_ne_comma (c : Char) (h : isDigit c = true) : c ≠ ',' := by
  intro e
  subst e
  revert h
  decide

theorem isToken_no_comma (s : Bytes) (h : isToken s = true) : ',' ∉ s := by
  cases s with
  | nil => simp
  | cons c rest =>
    simp only [isToken] at h
    intro hmem
    by_cases hs : c = '-' ∨ c = '+'
    · rw [if_pos hs] at h
      simp only [Bool.and_eq_true, List.all_eq_true] at h
      rcases List.mem_cons.1 hmem with e | hin
      · rcases hs with hs | hs <;> · rw [hs] at e; revert e; decide
      · exact isDigit_ne_comma _ (h.2 _ hin) rfl
    · rw [if_neg hs] at h
      simp only [List.all_eq_true] at h
      exact isDigit_ne_comma _ (h _ hmem) rfl

theorem isIntToken_spec (s : Bytes) :
    isIntToken s = true ↔ isToken s = true ∧ minInt ≤ tokenVal s ∧ tokenVal s ≤ maxInt := by
  simp [isIntToken, and_assoc]

theorem parseSpan_token (s : Bytes) (h : isIntToken s = true) :
    parseSpan s = (tokenVal s, tokenVal s) := by
  have hno := isToken_no_comma s ((isIntToken_spec s).1 h).1
  simp [parseSpan, Index_of_not_mem s ',' hno, Atoi_eq, h]

theorem parseSpan_pair (l r : Bytes) (hl : isIntToken l = true) (hr : isIntToken r = true) :
    parseSpan (l ++ ',' :: r) = (tokenVal l, tokenVal r) := by
  have hno := isToken_no_comma l ((isIntToken_spec l).1 hl).1
  have hi := Index_append l r ',' hno
  have hnn : ¬ ((l.length : Int) < 0) := by omega
  simp [parseSpan, hi, hnn, Atoi_eq, hl, hr]

theorem parseSpan_malformed (text : Bytes) (h : Malformed text) : parseSpan text = (0, 0) := by
  obtain ⟨h1, h2⟩ := h
  by_cases hi : Index text ',' < 0
  · simp [parseSpan, hi, Atoi_eq, h1]
  · have hsplit := Index_split text ',' (by omega)
    have hnot := h2 _ _ hsplit
    simp only [parseSpan, if_neg hi, Atoi_eq]
    by_cases ha : isIntToken (List.take (Index text ',').toNat text) = true
    · have hb : isIntToken (List.drop ((Index text ',').toNat + 1) text) = false := by
        cases hb : isIntToken (List.drop ((Index text ',').toNat + 1) text) with
        | false => rfl
        | true => exact absurd ⟨ha, hb⟩ hnot
      simp [ha, hb]
    · simp [ha]

theorem digitChar_isDigit (k : Nat) (h : k < 10) :
    isDigit (Nat.digitChar k) = true ∧ digitVal (Nat.digitChar k) = k := by
  interval_cases k <;> decide

theorem toDigitsCore_spec (fuel : Nat) : ∀ (n : Nat) (ds : Bytes), n < fuel →
    (∀ c ∈ ds, isDigit c = true) →
    (∀ c ∈ Nat.toDigitsCore 10 fuel n ds, isDigit c = true) ∧
    Nat.toDigitsCore 10 fuel n ds ≠ [] ∧
    (Nat.toDigitsCore 10 fuel n ds).foldl (fun n c => n * 10 + digitVal c) 0 =
      ds.foldl (fun n c => n * 10 + digitVal c) n := by
  induction fuel with
  | zero => intro n ds h; omega
  | succ fuel ih =>
    intro n ds hn hds
    have hd := digitChar_isDigit (n % 10) (Nat.mod_lt _ (by decide))
    have hds2 : ∀ c ∈ Nat.digitChar (n % 10) :: ds, isDigit c = true := by
      intro c hc
      rcases List.mem_cons.1 hc with e | hin
      · rw [e]; exact hd.1
      · exact hds c hin
    simp only [Nat.toDigitsCore]
    by_cases h0 : n / 10 = 0
    · rw [if_pos h0]
      refine ⟨hds2, by simp, ?_⟩
      have hlt : n % 10 = n := Nat.mod_eq_of_lt (by omega)
      rw [List.foldl_cons, Nat.zero_mul, Nat.zero_add, hd.2, hlt]
    · rw [if_neg h0]
      have hlt : n / 10 < fuel := by omega
      obtain ⟨h1, h2, h3⟩ := ih (n / 10) (Nat.digitChar (n % 10) :: ds) hlt hds2
      refine ⟨h1, h2, ?_⟩
      rw [h3, List.foldl_cons, hd.2]
      have e : n / 10 * 10 + n % 10 = n := by omega
      rw [e]

theorem toDigits_spec (n : Nat) :
    (Nat.toDigits 10 n).all isDigit = true ∧ Nat.toDigits 10 n ≠ [] ∧
      decimalVal (Nat.toDigits 10 n) = n := by
  obtain ⟨h1, h2, h3⟩ := toDigitsCore_spec (n + 1) n [] (Nat.lt_succ_self n) (by simp)
  refine ⟨List.all_eq_true.2 h1, h2, ?_⟩
  simpa [decimalVal, Nat.toDigits] using h3

/-- The decimal rendering of an integer is a decimal token that denotes it. -/
theorem Itoa_token (N : Int) : isToken (Itoa N) = true ∧ tokenVal (Itoa N) = N := by
  obtain ⟨h1, h2, h3⟩ := toDigits_spec N.natAbs
  by_cases hneg : N < 0
  · simp only [Itoa, if_pos hneg, isToken, tokenVal, true_or, if_true, h1, h3, Bool.and_true,
      Bool.not_eq_true', List.isEmpty_eq_false]
    refine ⟨by simpa using h2, by omega⟩
  · simp only [Itoa, if_neg hneg]
    cases hd : Nat.toDigits 10 N.natAbs with
    | nil => exact absurd hd h2
    | cons c cs =>
      rw [hd] at h1 h3
      have hc : isDigit c = true := by
        simp only [List.all_cons, Bool.and_eq_true] at h1
        exact h1.1
      have hm : c ≠ '-' := by intro e; subst e; revert hc; decide
      have hp : c ≠ '+' := by intro e; subst e; revert hc; decide
      simp only [isToken, tokenVal, hm, hp, or_self, if_false, h1, h3, true_and]
      omega

theorem Itoa_intToken (N : Int) (h1 : minInt ≤ N) (h2 : N ≤ maxInt) :
    isIntToken (Itoa N) = true := by
  rw [isIntToken_spec, (Itoa_token N).2]
  exact ⟨(Itoa_token N).1, h1, h2⟩

theorem malformed_of (text : Bytes) (h1 : isIntToken text = false)
    (h2 : Index text ',' < 0 ∨ isIntToken (text.take (Index text ',').toNat) = false ∨
      isIntToken (text.drop ((Index text ',').toNat + 1)) = false) : Malformed text := by
  refine ⟨h1, ?_⟩
  intro l r hsplit hboth
  have hno := isToken_no_comma l ((isIntToken_spec l).1 hboth.1).1
  have hi := Index_append l r ',' hno
  rw [← hsplit] at hi
  rw [hi] at h2
  have ht : List.take (l.length : Int).toNat text = l := by
    rw [hsplit]; simp
  have hd : List.drop ((l.length : Int).toNat + 1) text = r := by
    rw [hsplit]; simp
  rw [ht, hd, hboth.1, hboth.2] at h2
  rcases h2 with h | h | h
  · omega
  · exact Bool.noConfusion h
  · exact Bool.noConfusion h

/-- C2. `parseSpan` on an integer written as a decimal token gives `(N, N)`, on two such
tokens around a comma with `N ≤ M` gives `(N, M)`, and on every malformed text gives the
ordinary result `(0, 0)`; integers are Go `int` values. -/
theorem parseSpan_spec :
    (∀ (N : Int) (s : Bytes), minInt ≤ N → N ≤ maxInt → isToken s = true → tokenVal s = N →
        parseSpan s = (N, N)) ∧
    (∀ (N M : Int) (l r : Bytes), minInt ≤ N → N ≤ M → M ≤ maxInt →
        isToken l = true → tokenVal l = N → isToken r = true → tokenVal r = M →
        parseSpan (l ++ ',' :: r) = (N, M)) ∧
    (∀ N : Int, minInt ≤ N → N ≤ maxInt → parseSpan (Itoa N) = (N, N)) ∧
    (∀ N M : Int, minInt ≤ N → N ≤ M → M ≤ maxInt →
        parseSpan (Itoa N ++ ',' :: Itoa M) = (N, M)) ∧
    (∀ text : Bytes, Malformed text → parseSpan text = (0, 0)) ∧
    Malformed (str "") ∧ Malformed (str "abc") ∧ Malformed (str "12,") ∧
    Malformed (str ",12") ∧ Malformed (str "1,2,3") ∧
    parseSpan (str "") = (0, 0) ∧ parseSpan (str "abc") = (0, 0) ∧
    parseSpan (str "12,") = (0, 0) ∧ parseSpan (str ",12") = (0, 0) ∧
    parseSpan (str "1,2,3") = (0, 0) := by
  refine ⟨?_, ?_, ?_, ?_, parseSpan_malformed, ?_, ?_, ?_, ?_, ?_, by decide, by decide,
    by decide, by decide, by decide⟩
  · intro N s h1 h2 ht hv
    have := parseSpan_token s ((isIntToken_spec s).2 ⟨ht, hv ▸ h1, hv ▸ h2⟩)
    rw [this, hv]
  · intro N M l r h1 h2 h3 hl hlv hr hrv
    have hL := (isIntToken_spec l).2 ⟨hl, hlv ▸ h1, hlv ▸ (le_trans h2 h3)⟩
    have hR := (isIntToken_spec r).2 ⟨hr, hrv ▸ (le_trans h1 h2), hrv ▸ h3⟩
    rw [parseSpan_pair l r hL hR, hlv, hrv]
  · intro N h1 h2
    rw [parseSpan_token _ (Itoa_intToken N h1 h2), (Itoa_token N).2]
  · intro N M h1 h2 h3
    rw [parseSpan_pair _ _ (Itoa_intToken N h1 (le_trans h2 h3))
      (Itoa_intToken M (le_trans h1 h2) h3), (Itoa_token N).2, (Itoa_token M).2]
  all_goals exact malformed_of _ (by decide) (by decide)

/-- C2 at concrete texts: `12`, `12,14`, the rendering of `-7`, and the malformed `1,,2`. -/
theorem parseSpan_spec_witness :
    parseSpan (str "12") = (12, 12) ∧
    parseSpan (str "12" ++ ',' :: str "14") = (12, 14) ∧
    parseSpan (Itoa (-7)) = (-7, -7) ∧
    parseSpan (str "1,,2") = (0, 0) :=
  ⟨parseSpan_spec.1 12 (str "12") (by decide) (by decide) (by decide) (by decide),
    parseSpan_spec.2.1 12 14 (str "12") (str "14") (by decide) (by decide) (by decide)
      (by decide) (by decide) (by decide) (by decide),
    parseSpan_spec.2.2.1 (-7) (by decide) (by decide),
    parseSpan_spec.2.2.2.2.1 (str "1,,2") (malformed_of _ (by decide) (by decide))⟩

/-! ## The replay loop -/

theorem scanOp_append (old nw : Bytes) (op : Char) (h : ∀ c ∈ old, isOp c = false)
    (hop : isOp op = true) : ∀ j : Nat, scanOp (old ++ op :: nw) j = j + old.length := by
  induction old with
  | nil =>
    intro j
    have : ¬ (op ≠ 'a' ∧ op ≠ 'c' ∧ op ≠ 'd') := by
      simp only [isOp, decide_eq_true_eq] at hop
      tauto
    simp [scanOp, this]
  | cons c cs ih =>
    intro j
    have hc : c ≠ 'a' ∧ c ≠ 'c' ∧ c ≠ 'd' := by
      have := h c (by simp)
      simp only [isOp, decide_eq_false_iff_not] at this
      tauto
    have hcs : ∀ d ∈ cs, isOp d = false := fun d hd => h d (by simp [hd])
    show scanOp (c :: (cs ++ op :: nw)) j = _
    simp only [scanOp, hc, ne_eq, not_false_eq_true, and_self, if_true, ih hcs, List.length_cons]
    omega

theorem scanOp_noOp (line : Bytes) (h : ∀ c ∈ line, isOp c = false) :
    ∀ j : Nat, scanOp line j = j + line.length := by
  induction line with
  | nil => intro j; simp [scanOp]
  | cons c cs ih =>
    intro j
    have hc : c ≠ 'a' ∧ c ≠ 'c' ∧ c ≠ 'd' := by
      have := h c (by simp)
      simp only [isOp, decide_eq_false_iff_not] at this
      tauto
    have hcs : ∀ d ∈ cs, isOp d = false := fun d hd => h d (by simp [hd])
    simp only [scanOp, hc, ne_eq, not_false_eq_true, and_self, if_true, ih hcs, List.length_cons]
    omega

/-- A line with an operator splits at its first operator. -/
theorem line_split (line : Bytes) (h : hasOp line = true) :
    ∃ op, opOf line = some op ∧ isOp op = true ∧ line = oldText line ++ op :: newText line ∧
      ∀ c ∈ oldText line, isOp c = false := by
  induction line with
  | nil => simp [hasOp] at h
  | cons c cs ih =>
    by_cases hc : isOp c = true
    · exact ⟨c, by simp [opOf, hc], hc, by simp [oldText, newText, hc], by simp [oldText, hc]⟩
    · have hcs : hasOp cs = true := by
        simp only [hasOp, List.any_cons, Bool.or_eq_true] at h
        rcases h with h | h
        · exact absurd h hc
        · exact h
      obtain ⟨op, h1, h2, h3, h4⟩ := ih hcs
      refine ⟨op, ?_, h2, ?_, ?_⟩
      · simpa [opOf, hc] using h1
      · simp only [oldText, newText, List.takeWhile_cons, List.dropWhile_cons, hc,
          Bool.not_false, if_true, List.cons_append] at h3 ⊢
        simp only [Bool.not_eq_true] at hc
        simp only [hc, Bool.not_false, if_true, List.cons_append, List.cons.injEq, true_and]
        exact h3
      · intro d hd
        simp only [Bool.not_eq_true] at hc
        simp only [oldText, List.takeWhile_cons, hc, Bool.not_false, if_true,
          List.mem_cons] at hd
        rcases hd with e | hd
        · rw [e]; exact hc
        · exact h4 d hd

/-- The loop body on a directive line `old ++ op :: nw`, `op` being its first operator. -/
theorem replayLine_split {σ : Type} (W : Win σ) (new old nw : Bytes) (op : Char) (s : σ)
    (hdir : isDirective (old ++ op :: nw) = true) (hold : ∀ c ∈ old, isOp c = false)
    (hop : isOp op = true) :
    gofmt.replayLine W new (old ++ op :: nw) s =
      if (parseSpan old).1 = 0 ∨ (parseSpan nw).1 = 0 then (s, true)
      else if (W.Addr (addressOf op (parseSpan old)) s).2 = true then
        ((W.Write (contentOf op new (parseSpan nw))
          (W.Addr (addressOf op (parseSpan old)) s).1).1, true)
      else ((W.Addr (addressOf op (parseSpan old)) s).1, false) := by
  have hne : old ++ op :: nw ≠ [] := by simp
  have hhead : ¬ ((old ++ op :: nw).head? = some '<' ∨ (old ++ op :: nw).head? = some '-' ∨
      (old ++ op :: nw).head? = some '>') := by
    cases hl : old ++ op :: nw with
    | nil => exact absurd hl hne
    | cons c cs =>
      rw [hl] at hdir
      simp only [isDirective, decide_eq_true_eq] at hdir
      simp only [List.head?_cons, Option.some.injEq]
      tauto
  have hj : scanOp (old ++ op :: nw) 0 = old.length := by
    rw [scanOp_append old nw op hold hop 0]; omega
  have hlt : ¬ (old.length ≥ (old ++ op :: nw).length) := by
    simp only [List.length_append, List.length_cons]; omega
  have htake : List.take old.length (old ++ op :: nw) = old := by simp
  have hdrop : List.drop (old.length + 1) (old ++ op :: nw) = nw := by simp
  have hget : (old ++ op :: nw).get? old.length = some op := by
    rw [List.get?_eq_getElem?, List.getElem?_append_right (le_refl _)]
    simp
  simp only [gofmt.replayLine, if_neg hne, if_neg hhead, hj, if_neg hlt, htake, hdrop, hget]
  by_cases hz : (parseSpan old).1 = 0 ∨ (parseSpan nw).1 = 0
  · simp only [if_pos hz]
  · simp only [if_neg hz]
    simp only [isOp, decide_eq_true_eq] at hop
    rcases hop with h | h | h <;> subst h <;> simp [addressOf, contentOf]

/-- The loop body on a directive line without an operator: `return false`. -/
theorem replayLine_noOp {σ : Type} (W : Win σ) (new line : Bytes) (s : σ)
    (hdir : isDirective line = true) (hno : ∀ c ∈ line, isOp c = false) :
    gofmt.replayLine W new line s = (s, false) := by
  have hne : line ≠ [] := by intro e; subst e; simp [isDirective] at hdir
  have hhead : ¬ (line.head? = some '<' ∨ line.head? = some '-' ∨ line.head? = some '>') := by
    cases line with
    | nil => exact absurd rfl hne
    | cons c cs =>
      simp only [isDirective, decide_eq_true_eq] at hdir
      simp only [List.head?_cons, Option.some.injEq]
      tauto
  have hj : scanOp line 0 = line.length := by
    rw [scanOp_noOp line hno 0]; omega
  simp [gofmt.replayLine, hne, hhead, hj]

/-- The loop body on a line that is not a directive: `continue`. -/
theorem replayLine_skip {σ : Type} (W : Win σ) (new line : Bytes) (s : σ)
    (hdir : isDirective line = false) : gofmt.replayLine W new line s = (s, true) := by
  cases line with
  | nil => simp [gofmt.replayLine]
  | cons c cs =>
    simp only [isDirective, decide_eq_false_iff_not] at hdir
    have : c = '<' ∨ c = '-' ∨ c = '>' := by tauto
    simp [gofmt.replayLine, this]

theorem replayLoop_prefix {σ : Type} (W : Win σ) (new : Bytes) (A B : List Bytes) :
    ∀ (i : Nat) (s : σ), i ≤ A.length →
      gofmt.replayLoop W new (A ++ B) i s = gofmt.replayLoop W new A i s := by
  intro i
  induction i with
  | zero => intro s _; rfl
  | succ i ih =>
    intro s hi
    have hget : (A ++ B).getD i [] = A.getD i [] := by
      simp only [List.getD_eq_getElem?_getD]
      rw [List.getElem?_append_left (by omega)]
    simp only [gofmt.replayLoop, hget]
    split
    · exact ih _ (by omega)
    · rfl

theorem replayLoop_snoc {σ : Type} (W : Win σ) (new : Bytes) (A : List Bytes) (line : Bytes)
    (s : σ) :
    gofmt.replayLoop W new (A ++ [line]) (A ++ [line]).length s =
      if (gofmt.replayLine W new line s).2 then
        gofmt.replayLoop W new A A.length (gofmt.replayLine W new line s).1
      else ((gofmt.replayLine W new line s).1, false) := by
  have hlen : (A ++ [line]).length = A.length + 1 := by simp
  have hget : (A ++ [line]).getD A.length [] = line := by simp
  rw [hlen]
  simp only [gofmt.replayLoop, hget]
  split
  · exact replayLoop_prefix W new A [line] A.length _ (le_refl _)
  · rfl

/-- The loop visits the lines of the summary from the last to the first. -/
theorem replayLoop_eq_runLines {σ : Type} (W : Win σ) (new : Bytes) (L : List Bytes) :
    ∀ s : σ, gofmt.replayLoop W new L L.length s = runLines W new L.reverse s := by
  induction L using List.reverseRecOn with
  | nil => intro s; rfl
  | append_singleton A line ih =>
    intro s
    rw [replayLoop_snoc, List.reverse_append, List.reverse_singleton, List.singleton_append]
    simp only [runLines]
    split
    · exact ih _
    · rfl

theorem runLines_append {σ : Type} (W : Win σ) (new : Bytes) (X Y : List Bytes) :
    ∀ s : σ, runLines W new (X ++ Y) s =
      if (runLines W new X s).2 then runLines W new Y (runLines W new X s).1
      else ((runLines W new X s).1, false) := by
  induction X with
  | nil => intro s; simp [runLines]
  | cons x X ih =>
    intro s
    simp only [List.cons_append, runLines]
    by_cases h : (gofmt.replayLine W new x s).2 = true
    · simp only [h, if_true]
      exact ih _
    · simp [h]

/-- The loop on `pre ++ line :: post`: the lines of `post` first, then `line`, then `pre`. -/
theorem replayLoop_middle {σ : Type} (W : Win σ) (new : Bytes) (pre post : List Bytes)
    (line : Bytes) (s : σ)
    (hpost : (gofmt.replayLoop W new post post.length s).2 = true) :
    gofmt.replayLoop W new (pre ++ line :: post) (pre ++ line :: post).length s =
      if (gofmt.replayLine W new line (gofmt.replayLoop W new post post.length s).1).2 then
        gofmt.replayLoop W new pre pre.length
          (gofmt.replayLine W new line (gofmt.replayLoop W new post post.length s).1).1
      else ((gofmt.replayLine W new line (gofmt.replayLoop W new post post.length s).1).1, false) := by
  rw [replayLoop_eq_runLines, replayLoop_eq_runLines, replayLoop_eq_runLines] at *
  rw [List.reverse_append, List.reverse_cons, List.append_assoc, runLines_append, if_pos hpost]
  simp only [List.singleton_append, runLines]
  rfl

theorem logged_Addr {σ : Type} (W : Win σ) (a : Address) (t : σ × List Op) :
    W.logged.Addr a t = (((W.Addr a t.1).1, t.2 ++ [Op.addr a]), (W.Addr a t.1).2) := rfl

theorem logged_Write {σ : Type} (W : Win σ) (b : Bytes) (t : σ × List Op) :
    W.logged.Write b t = (((W.Write b t.1).1, t.2 ++ [Op.data b]), (W.Write b t.1).2) := rfl

theorem isDirective_of (line : Bytes) (hne : line ≠ []) (h1 : line.head? ≠ some '<')
    (h2 : line.head? ≠ some '-') (h3 : line.head? ≠ some '>') : isDirective line = true := by
  cases line with
  | nil => exact absurd rfl hne
  | cons c cs =>
    simp only [List.head?_cons, ne_eq, Option.some.injEq] at h1 h2 h3
    simp [isDirective, h1, h2, h3]

theorem isOp_false_of (line : Bytes) (ha : 'a' ∉ line) (hc : 'c' ∉ line) (hd : 'd' ∉ line) :
    ∀ c ∈ line, isOp c = false := by
  intro c hmem
  simp only [isOp, decide_eq_false_iff_not]
  rintro (e | e | e) <;> subst e
  · exact ha hmem
  · exact hc hmem
  · exact hd hmem

theorem runLines_skip {σ : Type} (W : Win σ) (new : Bytes) (line : Bytes)
    (h : ∀ s : σ, gofmt.replayLine W new line s = (s, true)) (X Y : List Bytes) :
    ∀ s : σ, runLines W new (X ++ line :: Y) s = runLines W new (X ++ Y) s := by
  induction X with
  | nil => intro s; simp [runLines, h]
  | cons x X ih =>
    intro s
    simp only [List.cons_append, runLines]
    split
    · exact ih _
    · rfl

theorem replayLoop_skip {σ : Type} (W : Win σ) (new : Bytes) (line : Bytes)
    (h : ∀ s : σ, gofmt.replayLine W new line s = (s, true)) (pre post : List Bytes) (s : σ) :
    gofmt.replayLoop W new (pre ++ line :: post) (pre ++ line :: post).length s =
      gofmt.replayLoop W new (pre ++ post) (pre ++ post).length s := by
  rw [replayLoop_eq_runLines, replayLoop_eq_runLines, List.reverse_append, List.reverse_cons,
    List.append_assoc, List.singleton_append, runLines_skip W new line h, List.reverse_append]

/-! ## Claims about the replay loop -/

/-- C3 as stated fails: on the directive line `0,7c2` both parsed spans differ from
`(0, 0)` and no operation is issued; and on a window that rejects the address the directive
line `5a6,7`, whose spans are non-zero, gets its address issued but no write, and the loop
returns false. -/
theorem replay_directive_without_edit :
    isDirective (str "0,7c2") = true ∧
    parseSpan (oldText (str "0,7c2")) = (0, 7) ∧ parseSpan (oldText (str "0,7c2")) ≠ (0, 0) ∧
    parseSpan (newText (str "0,7c2")) = (2, 2) ∧ parseSpan (newText (str "0,7c2")) ≠ (0, 0) ∧
    trace Win.null (str "p\nq\n") (str "0,7c2\n") () = [] ∧
    parseSpan (oldText (str "5a6,7")) = (5, 5) ∧ parseSpan (newText (str "5a6,7")) = (6, 7) ∧
    trace Win.addrFails (str "p\nq\nr\ns\nt\nu\nv\n") (str "5a6,7\n") () =
      [Op.addr (Address.after 5)] ∧
    (gofmt.replay Win.addrFails (str "p\nq\nr\ns\nt\nu\nv\n") (str "5a6,7\n") ()).2 = false := by
  decide

/-- C3, as the code has it. A directive line `old ++ op :: nw` (with `op` its first
operator) whose two parsed spans have a non-zero start makes the loop body issue the
address of the directive: for `a` the zero-width address after line `oldStart`, for `c` and
`d` the address `oldStart,oldEnd`. When the address is accepted exactly one write follows,
so exactly one buffer edit is issued, the bytes being `findLines(new, newStart, newEnd)` for
`a` and `c` and empty content for `d`, and the loop goes on; when the address is rejected
nothing is written and the loop returns false. Inside a summary the loop records this after
the operations of the later lines. The two end-to-end scenarios of the specification
produce the single edits it names, on a window that accepts every address and on a line
buffer holding the old text. -/
theorem replay_directive_edit :
    (∀ (σ : Type) (W : Win σ) (new old nw : Bytes) (s : σ) (log : List Op),
      isDirective (old ++ 'a' :: nw) = true → (∀ c ∈ old, isOp c = false) →
      (parseSpan old).1 ≠ 0 → (parseSpan nw).1 ≠ 0 →
      gofmt.replayLine W.logged new (old ++ 'a' :: nw) (s, log) =
        if (W.Addr (Address.after (parseSpan old).1) s).2 = true then
          (((W.Write (findLines new (parseSpan nw).1 (parseSpan nw).2)
              (W.Addr (Address.after (parseSpan old).1) s).1).1,
            log ++ [Op.addr (Address.after (parseSpan old).1),
              Op.data (findLines new (parseSpan nw).1 (parseSpan nw).2)]), true)
        else
          (((W.Addr (Address.after (parseSpan old).1) s).1,
            log ++ [Op.addr (Address.after (parseSpan old).1)]), false)) ∧
    (∀ (σ : Type) (W : Win σ) (new old nw : Bytes) (s : σ) (log : List Op),
      isDirective (old ++ 'c' :: nw) = true → (∀ c ∈ old, isOp c = false) →
      (parseSpan old).1 ≠ 0 → (parseSpan nw).1 ≠ 0 →
      gofmt.replayLine W.logged new (old ++ 'c' :: nw) (s, log) =
        if (W.Addr (Address.lines (parseSpan old).1 (parseSpan old).2) s).2 = true then
          (((W.Write (findLines new (parseSpan nw).1 (parseSpan nw).2)
              (W.Addr (Address.lines (parseSpan old).1 (parseSpan old).2) s).1).1,
            log ++ [Op.addr (Address.lines (parseSpan old).1 (parseSpan old).2),
              Op.data (findLines new (parseSpan nw).1 (parseSpan nw).2)]), true)
        else
          (((W.Addr (Address.lines (parseSpan old).1 (parseSpan old).2) s).1,
            log ++ [Op.addr (Address.lines (parseSpan old).1 (parseSpan old).2)]), false)) ∧
    (∀ (σ : Type) (W : Win σ) (new old nw : Bytes) (s : σ) (log : List Op),
      isDirective (old ++ 'd' :: nw) = true → (∀ c ∈ old, isOp c = false) →
      (parseSpan old).1 ≠ 0 → (parseSpan nw).1 ≠ 0 →
      gofmt.replayLine W.logged new (old ++ 'd' :: nw) (s, log) =
        if (W.Addr (Address.lines (parseSpan old).1 (parseSpan old).2) s).2 = true then
          (((W.Write [] (W.Addr (Address.lines (parseSpan old).1 (parseSpan old).2) s).1).1,
            log ++ [Op.addr (Address.lines (parseSpan old).1 (parseSpan old).2), Op.data []]),
            true)
        else
          (((W.Addr (Address.lines (parseSpan old).1 (parseSpan old).2) s).1,
            log ++ [Op.addr (Address.lines (parseSpan old).1 (parseSpan old).2)]), false)) ∧
    (∀ (σ : Type) (W : Win σ) (new old nw : Bytes) (op : Char) (pre post : List Bytes) (s : σ),
      isDirective (old ++ op :: nw) = true → (∀ c ∈ old, isOp c = false) → isOp op = true →
      (parseSpan old).1 ≠ 0 → (parseSpan nw).1 ≠ 0 →
      (gofmt.replayLoop W.logged new post post.length (s, [])).2 = true →
      gofmt.replayLoop W.logged new (pre ++ (old ++ op :: nw) :: post)
          (pre ++ (old ++ op :: nw) :: post).length (s, []) =
        if (W.Addr (addressOf op (parseSpan old))
            (gofmt.replayLoop W.logged new post post.length (s, [])).1.1).2 = true then
          gofmt.replayLoop W.logged new pre pre.length
            ((W.Write (contentOf op new (parseSpan nw))
                (W.Addr (addressOf op (parseSpan old))
                  (gofmt.replayLoop W.logged new post post.length (s, [])).1.1).1).1,
              (gofmt.replayLoop W.logged new post post.length (s, [])).1.2 ++
                [Op.addr (addressOf op (parseSpan old)),
                  Op.data (contentOf op new (parseSpan nw))])
        else
          (((W.Addr (addressOf op (parseSpan old))
              (gofmt.replayLoop W.logged new post post.length (s, [])).1.1).1,
            (gofmt.replayLoop W.logged new post post.length (s, [])).1.2 ++
              [Op.addr (addressOf op (parseSpan old))]), false)) ∧
    trace Win.null (str "x\nY\nz\n") (str "2c2\n< y\n---\n> Y\n") () =
      [Op.addr (Address.lines 2 2), Op.data (str "Y\n")] ∧
    trace Win.null (str "x\ny\nz\n") (str "1a2\n> y\n") () =
      [Op.addr (Address.after 1), Op.data (str "y\n")] ∧
    trace Win.buffer (str "x\nY\nz\n") (str "2c2\n< y\n---\n> Y\n")
        (Buffer.mk (str "x\ny\nz\n") 0 0) =
      [Op.addr (Address.lines 2 2), Op.data (str "Y\n")] ∧
    trace Win.buffer (str "x\ny\nz\n") (str "1a2\n> y\n") (Buffer.mk (str "x\nz\n") 0 0) =
      [Op.addr (Address.after 1), Op.data (str "y\n")] := by
  refine ⟨?_, ?_, ?_, ?_, by decide, by decide, by decide, by decide⟩
  · intro σ W new old nw s log hdir hold h1 h2
    rw [replayLine_split W.logged new old nw 'a' (s, log) hdir hold (by decide)]
    have hz : ¬ ((parseSpan old).1 = 0 ∨ (parseSpan nw).1 = 0) := by tauto
    simp only [addressOf, contentOf]
    by_cases hok : (W.Addr (Address.after (parseSpan old).1) s).2 = true
    · simp [hz, logged_Addr, logged_Write, hok]
    · simp [hz, logged_Addr, logged_Write, hok]
  · intro σ W new old nw s log hdir hold h1 h2
    rw [replayLine_split W.logged new old nw 'c' (s, log) hdir hold (by decide)]
    have hz : ¬ ((parseSpan old).1 = 0 ∨ (parseSpan nw).1 = 0) := by tauto
    simp only [addressOf, contentOf]
    by_cases hok : (W.Addr (Address.lines (parseSpan old).1 (parseSpan old).2) s).2 = true
    · simp [hz, logged_Addr, logged_Write, hok]
    · simp [hz, logged_Addr, logged_Write, hok]
  · intro σ W new old nw s log hdir hold h1 h2
    rw [replayLine_split W.logged new old nw 'd' (s, log) hdir hold (by decide)]
    have hz : ¬ ((parseSpan old).1 = 0 ∨ (parseSpan nw).1 = 0) := by tauto
    simp only [addressOf, contentOf]
    by_cases hok : (W.Addr (Address.lines (parseSpan old).1 (parseSpan old).2) s).2 = true
    · simp [hz, logged_Addr, logged_Write, hok]
    · simp [hz, logged_Addr, logged_Write, hok]
  · intro σ W new old nw op pre post s hdir hold hop h1 h2 hreach
    have hz : ¬ ((parseSpan old).1 = 0 ∨ (parseSpan nw).1 = 0) := by tauto
    rw [replayLoop_middle W.logged new pre post _ (s, []) hreach,
      replayLine_split W.logged new old nw op _ hdir hold hop, if_neg hz]
    generalize gofmt.replayLoop W.logged new post post.length (s, []) = st
    by_cases hok : (W.Addr (addressOf op (parseSpan old)) st.1.1).2 = true
    · simp [logged_Addr, logged_Write, hok]
    · simp [logged_Addr, logged_Write, hok]

/-- C3 at the directive lines `5a6,7`, `2,3c2` and `4,5d3` on the text
`"p\nq\nr\ns\nt\nu\nv\n"`, the first two on a window that accepts the address, the third on
one that rejects it. -/
theorem replay_directive_edit_witness :
    gofmt.replayLine Win.null.logged (str "p\nq\nr\ns\nt\nu\nv\n") (str "5" ++ 'a' :: str "6,7")
        ((), []) =
      (((), [Op.addr (Address.after 5), Op.data (str "u\nv\n")]), true) ∧
    gofmt.replayLine Win.null.logged (str "p\nq\nr\ns\nt\nu\nv\n") (str "2,3" ++ 'c' :: str "2")
        ((), []) =
      (((), [Op.addr (Address.lines 2 3), Op.data (str "q\n")]), true) ∧
    gofmt.replayLine Win.addrFails.logged (str "p\nq\nr\ns\nt\nu\nv\n")
        (str "4,5" ++ 'd' :: str "3") ((), []) =
      (((), [Op.addr (Address.lines 4 5)]), false) :=
  ⟨replay_directive_edit.1 Unit Win.null (str "p\nq\nr\ns\nt\nu\nv\n") (str "5") (str "6,7") () []
      (by decide) (by decide) (by decide) (by decide),
    replay_directive_edit.2.1 Unit Win.null (str "p\nq\nr\ns\nt\nu\nv\n") (str "2,3") (str "2")
      () [] (by decide) (by decide) (by decide) (by decide),
    replay_directive_edit.2.2.1 Unit Win.addrFails (str "p\nq\nr\ns\nt\nu\nv\n") (str "4,5")
      (str "3") () [] (by decide) (by decide) (by decide) (by decide)⟩

/-- C6. A non-empty summary line that does not begin with `<`, `-` or `>` and contains none
of `a`, `c`, `d` makes the loop abort when it reaches the line: the loop returns false, and
the window state and the record of operations are those left by the lines after it, so no
operation is issued for the line or for any line before it. -/
theorem replay_abort_without_operator (σ : Type) (W : Win σ) (new : Bytes)
    (pre post : List Bytes) (line : Bytes) (s : σ)
    (hne : line ≠ []) (h1 : line.head? ≠ some '<') (h2 : line.head? ≠ some '-')
    (h3 : line.head? ≠ some '>') (ha : 'a' ∉ line) (hc : 'c' ∉ line) (hd : 'd' ∉ line)
    (hreach : (gofmt.replayLoop W.logged new post post.length (s, [])).2 = true) :
    gofmt.replayLoop W.logged new (pre ++ line :: post) (pre ++ line :: post).length (s, []) =
      ((gofmt.replayLoop W.logged new post post.length (s, [])).1, false) := by
  rw [replayLoop_middle W.logged new pre post line (s, []) hreach,
    replayLine_noOp W.logged new line _ (isDirective_of line hne h1 h2 h3)
      (isOp_false_of line ha hc hd)]
  simp

/-- C6 at a concrete summary: the line `12x7` is reached after the edit of `3c3` and aborts
the loop before `1c1` is looked at. -/
theorem replay_abort_without_operator_witness :
    gofmt.replayLoop Win.null.logged (str "A\nb\nC\n") ([str "1c1"] ++ str "12x7" :: [str "3c3"])
        ([str "1c1"] ++ str "12x7" :: [str "3c3"]).length ((), []) =
      ((gofmt.replayLoop Win.null.logged (str "A\nb\nC\n") [str "3c3"] [str "3c3"].length ((), [])).1,
        false) :=
  replay_abort_without_operator Unit Win.null (str "A\nb\nC\n") [str "1c1"] [str "3c3"]
    (str "12x7") () (by decide) (by decide) (by decide) (by decide) (by decide) (by decide)
    (by decide) (by decide)

/-- C7, as the code has it. A directive line `old ++ op :: nw` (with `op` its first
operator) is skipped, with no operation issued and the loop going on, exactly when the
start of one of its two parsed spans is 0. When neither start is 0 the address of the
directive is issued; if the address is accepted the write follows and the loop goes on, if
it is rejected nothing is written and the loop returns false. -/
theorem replay_skip_iff_zero_start (σ : Type) (W : Win σ) (new old nw : Bytes) (op : Char)
    (s : σ) (log : List Op)
    (hdir : isDirective (old ++ op :: nw) = true) (hold : ∀ c ∈ old, isOp c = false)
    (hop : isOp op = true) :
    (((parseSpan old).1 = 0 ∨ (parseSpan nw).1 = 0) →
      gofmt.replayLine W.logged new (old ++ op :: nw) (s, log) = ((s, log), true)) ∧
    (¬ ((parseSpan old).1 = 0 ∨ (parseSpan nw).1 = 0) →
      gofmt.replayLine W.logged new (old ++ op :: nw) (s, log) =
        if (W.Addr (addressOf op (parseSpan old)) s).2 = true then
          (((W.Write (contentOf op new (parseSpan nw))
              (W.Addr (addressOf op (parseSpan old)) s).1).1,
            log ++ [Op.addr (addressOf op (parseSpan old)),
              Op.data (contentOf op new (parseSpan nw))]), true)
        else
          (((W.Addr (addressOf op (parseSpan old)) s).1,
            log ++ [Op.addr (addressOf op (parseSpan old))]), false)) ∧
    ((gofmt.replayLine W.logged new (old ++ op :: nw) (s, log)).1.2 = log ↔
      ((parseSpan old).1 = 0 ∨ (parseSpan nw).1 = 0)) := by
  have key := replayLine_split W.logged new old nw op (s, log) hdir hold hop
  by_cases hz : (parseSpan old).1 = 0 ∨ (parseSpan nw).1 = 0
  · rw [if_pos hz] at key
    exact ⟨fun _ => key, fun h => absurd hz h, by rw [key]; simp [hz]⟩
  · rw [if_neg hz] at key
    have hfull : gofmt.replayLine W.logged new (old ++ op :: nw) (s, log) =
        if (W.Addr (addressOf op (parseSpan old)) s).2 = true then
          (((W.Write (contentOf op new (parseSpan nw))
              (W.Addr (addressOf op (parseSpan old)) s).1).1,
            log ++ [Op.addr (addressOf op (parseSpan old)),
              Op.data (contentOf op new (parseSpan nw))]), true)
        else
          (((W.Addr (addressOf op (parseSpan old)) s).1,
            log ++ [Op.addr (addressOf op (parseSpan old))]), false) := by
      rw [key]
      by_cases hok : (W.Addr (addressOf op (parseSpan old)) s).2 = true
      · simp [logged_Addr, logged_Write, hok]
      · simp [logged_Addr, logged_Write, hok]
    refine ⟨fun h => absurd h hz, fun _ => hfull, ?_⟩
    rw [hfull]
    by_cases hok : (W.Addr (addressOf op (parseSpan old)) s).2 = true
    · simp [hok, hz]
    · simp [hok, hz]

/-- C7 at concrete lines: `0,5c1` is skipped; `2,5c1` has its address and its write issued
on a window that accepts the address, and its address alone, with the loop returning false,
on a window that rejects it. -/
theorem replay_skip_iff_zero_start_witness :
    gofmt.replayLine Win.null.logged (str "A\n") (str "0,5" ++ 'c' :: str "1") ((), []) =
      (((), []), true) ∧
    gofmt.replayLine Win.null.logged (str "A\n") (str "2,5" ++ 'c' :: str "1") ((), []) =
      (((), [Op.addr (Address.lines 2 5), Op.data (str "A\n")]), true) ∧
    gofmt.replayLine Win.addrFails.logged (str "A\n") (str "2,5" ++ 'c' :: str "1") ((), []) =
      (((), [Op.addr (Address.lines 2 5)]), false) :=
  ⟨(replay_skip_iff_zero_start Unit Win.null (str "A\n") (str "0,5") (str "1") 'c' () []
      (by decide) (by decide) (by decide)).1 (by decide),
    (replay_skip_iff_zero_start Unit Win.null (str "A\n") (str "2,5") (str "1") 'c' () []
      (by decide) (by decide) (by decide)).2.1 (by decide),
    (replay_skip_iff_zero_start Unit Win.addrFails (str "A\n") (str "2,5") (str "1") 'c' () []
      (by decide) (by decide) (by decide)).2.1 (by decide)⟩

/-- C7 as stated fails: on the directive line `0,5c1` neither parsed span is the zero
sentinel `(0, 0)`, yet the loop body issues no operation for it. -/
theorem replay_skips_nonsentinel_span :
    isDirective (str "0,5c1") = true ∧ hasOp (str "0,5c1") = true ∧
    parseSpan (oldText (str "0,5c1")) = (0, 5) ∧ parseSpan (oldText (str "0,5c1")) ≠ (0, 0) ∧
    parseSpan (newText (str "0,5c1")) = (1, 1) ∧ parseSpan (newText (str "0,5c1")) ≠ (0, 0) ∧
    gofmt.replayLine Win.null.logged (str "A\n") (str "0,5c1") ((), []) = (((), []), true) ∧
    trace Win.null (str "A\n") (str "0,5c1\n< a\n---\n> A\n") () = [] := by
  decide

/-- C10. `parseSpan("0")` is `(0, 0)`, the value of a parse failure, so a directive line
whose old span or new span is the literal `0` (as in `0a<new>` and `<old>d0`) is a no-op
of the loop: the loop body issues nothing and goes on, the whole loop behaves as if the
line were absent, and the summaries `0a1` and `1d0` end with no operation and success. -/
theorem replay_zero_line_number :
    parseSpan (str "0") = (0, 0) ∧ parseSpan (str "?") = (0, 0) ∧
    (∀ (σ : Type) (W : Win σ) (new old nw : Bytes) (op : Char) (pre post : List Bytes)
      (s : σ) (log : List Op),
      isDirective (old ++ op :: nw) = true → (∀ c ∈ old, isOp c = false) → isOp op = true →
      (old = str "0" ∨ nw = str "0") →
      gofmt.replayLine W.logged new (old ++ op :: nw) (s, log) = ((s, log), true) ∧
      gofmt.replayLoop W.logged new (pre ++ (old ++ op :: nw) :: post)
          (pre ++ (old ++ op :: nw) :: post).length (s, log) =
        gofmt.replayLoop W.logged new (pre ++ post) (pre ++ post).length (s, log)) ∧
    gofmt.replay Win.null.logged (str "y\nx\n") (str "0a1\n> y\n") ((), []) = (((), []), true) ∧
    gofmt.replay Win.null.logged (str "x\n") (str "1d0\n< y\n") ((), []) = (((), []), true) := by
  refine ⟨by decide, by decide, ?_, by decide, by decide⟩
  intro σ W new old nw op pre post s log hdir hold hop h0
  have hz : (parseSpan old).1 = 0 ∨ (parseSpan nw).1 = 0 := by
    rcases h0 with h | h
    · left; rw [h]; decide
    · right; rw [h]; decide
  have hline : ∀ t : σ × List Op,
      gofmt.replayLine W.logged new (old ++ op :: nw) t = (t, true) := by
    intro t
    rw [replayLine_split W.logged new old nw op t hdir hold hop, if_pos hz]
  exact ⟨hline (s, log), replayLoop_skip W.logged new _ hline pre post (s, log)⟩

/-- C10 at the line `0a1,2` between two other directives. -/
theorem replay_zero_line_number_witness :
    gofmt.replayLine Win.null.logged (str "p\nq\n") (str "0" ++ 'a' :: str "1,2") ((), []) =
      (((), []), true) ∧
    gofmt.replayLoop Win.null.logged (str "p\nq\n")
        ([str "1c1"] ++ (str "0" ++ 'a' :: str "1,2") :: [str "3c3"])
        ([str "1c1"] ++ (str "0" ++ 'a' :: str "1,2") :: [str "3c3"]).length ((), []) =
      gofmt.replayLoop Win.null.logged (str "p\nq\n") ([str "1c1"] ++ [str "3c3"])
        ([str "1c1"] ++ [str "3c3"]).length ((), []) :=
  replay_zero_line_number.2.2.1 Unit Win.null (str "p\nq\n") (str "0") (str "1,2") 'a'
    [str "1c1"] [str "3c3"] () [] (by decide) (by decide) (by decide) (Or.inl rfl)

theorem replayLoop_writeOk {σ : Type} (W : Win σ) (new : Bytes) (L : List Bytes) :
    ∀ (n : Nat) (s : σ), gofmt.replayLoop W.writeOk new L n s = gofmt.replayLoop W new L n s := by
  have hline : ∀ (line : Bytes) (s : σ), gofmt.replayLine W.writeOk new line s = gofmt.replayLine W new line s := by
    intro line s
    simp only [gofmt.replayLine, Win.writeOk]
  intro n
  induction n with
  | zero => intro s; rfl
  | succ n ih =>
    intro s
    simp only [gofmt.replayLoop, hline, ih]

/-- C8, as the code has it. When the loop reaches a directive whose two spans have a
non-zero start and setting its address fails, the loop returns false at once, the last
operation on record is that address, and the window state is the one the failed call
left; nothing is undone. The error of a write is never looked at: the loop runs the same
on the window whose writes always report success. -/
theorem replay_abort_on_addr_failure :
    (∀ (σ : Type) (W : Win σ) (new old nw : Bytes) (op : Char) (pre post : List Bytes) (s : σ),
      isDirective (old ++ op :: nw) = true → (∀ c ∈ old, isOp c = false) → isOp op = true →
      (parseSpan old).1 ≠ 0 → (parseSpan nw).1 ≠ 0 →
      (gofmt.replayLoop W.logged new post post.length (s, [])).2 = true →
      (W.Addr (addressOf op (parseSpan old))
        (gofmt.replayLoop W.logged new post post.length (s, [])).1.1).2 = false →
      gofmt.replayLoop W.logged new (pre ++ (old ++ op :: nw) :: post)
          (pre ++ (old ++ op :: nw) :: post).length (s, []) =
        (((W.Addr (addressOf op (parseSpan old))
            (gofmt.replayLoop W.logged new post post.length (s, [])).1.1).1,
          (gofmt.replayLoop W.logged new post post.length (s, [])).1.2 ++
            [Op.addr (addressOf op (parseSpan old))]), false)) ∧
    (∀ (σ : Type) (W : Win σ) (new : Bytes) (L : List Bytes) (n : Nat) (s : σ),
      gofmt.replayLoop W.writeOk new L n s = gofmt.replayLoop W new L n s) := by
  refine ⟨?_, fun σ W new L n s => replayLoop_writeOk W new L n s⟩
  intro σ W new old nw op pre post s hdir hold hop h1 h2 hreach hfail
  have hz : ¬ ((parseSpan old).1 = 0 ∨ (parseSpan nw).1 = 0) := by tauto
  rw [replayLoop_middle W.logged new pre post _ (s, []) hreach,
    replayLine_split W.logged new old nw op _ hdir hold hop, if_neg hz]
  generalize gofmt.replayLoop W.logged new post post.length (s, []) = st at hfail ⊢
  simp [logged_Addr, hfail]

/-- C8 at a concrete summary: on a window that rejects every address, the directive `3c3`
aborts the loop with only its address on record, and `1c1` is never looked at. -/
theorem replay_abort_on_addr_failure_witness :
    gofmt.replayLoop Win.addrFails.logged (str "A\nb\nC\n")
        ([str "1c1"] ++ (str "3" ++ 'c' :: str "3") :: [str "> C"])
        ([str "1c1"] ++ (str "3" ++ 'c' :: str "3") :: [str "> C"]).length ((), []) =
      (((Win.addrFails.Addr (addressOf 'c' (parseSpan (str "3")))
          (gofmt.replayLoop Win.addrFails.logged (str "A\nb\nC\n") [str "> C"] [str "> C"].length
            ((), [])).1.1).1,
        (gofmt.replayLoop Win.addrFails.logged (str "A\nb\nC\n") [str "> C"] [str "> C"].length
            ((), [])).1.2 ++ [Op.addr (addressOf 'c' (parseSpan (str "3")))]), false) :=
  replay_abort_on_addr_failure.1 Unit Win.addrFails (str "A\nb\nC\n") (str "3") (str "3") 'c'
    [str "1c1"] [str "> C"] () (by decide) (by decide) (by decide) (by decide) (by decide)
    (by decide) (by decide)

/-- C8 as stated fails for writes: on a window whose every write reports an error, the loop
still goes on after the failed write of `3c3`, issues the address and the write of `1c1`,
and returns true. -/
theorem replay_continues_after_write_failure :
    (Win.writeFails.Write (str "C\n") ()).2 = false ∧
    gofmt.replay Win.writeFails.logged (str "A\nb\nC\n")
        (str "1c1\n< a\n---\n> A\n3c3\n< c\n---\n> C\n") ((), []) =
      (((), [Op.addr (Address.lines 3 3), Op.data (str "C\n"),
             Op.addr (Address.lines 1 1), Op.data (str "A\n")]), true) := by
  decide

theorem translate_split (new old nw : Bytes) (op : Char) (hold : ∀ c ∈ old, isOp c = false)
    (hop : isOp op = true) :
    translate new (old ++ op :: nw) =
      if (parseSpan old).1 = 0 ∨ (parseSpan nw).1 = 0 then []
      else [Op.addr (addressOf op (parseSpan old)), Op.data (contentOf op new (parseSpan nw))] := by
  have hall : ∀ c ∈ old, (fun c => !isOp c) c = true := by
    intro c hc; simp [hold c hc]
  have h1 : oldText (old ++ op :: nw) = old := by
    simp only [oldText]
    rw [List.takeWhile_append_of_pos hall]
    simp [hop]
  have h2 : (old ++ op :: nw).dropWhile (fun c => !isOp c) = op :: nw := by
    rw [List.dropWhile_append_of_pos hall]
    simp [hop]
  simp only [translate, opOf, newText, h1, h2, List.head?_cons, List.tail_cons]

/-- The loop body run over a list of lines records an initial part of the edits of its
directive lines, in order, and all of them when it does not abort. -/
theorem runLines_trace {σ : Type} (W : Win σ) (new : Bytes) (Ls : List Bytes) :
    ∀ (s : σ) (log : List Op), ∃ T R : List Op,
      (runLines W.logged new Ls (s, log)).1.2 = log ++ T ∧
      translateAll new (Ls.filter isDirective) = T ++ R ∧
      ((runLines W.logged new Ls (s, log)).2 = true → R = []) := by
  induction Ls with
  | nil => intro s log; exact ⟨[], [], by simp [runLines], by simp [translateAll], fun _ => rfl⟩
  | cons line rest ih =>
    intro s log
    by_cases hdir : isDirective line = true
    · by_cases hop : hasOp line = true
      · obtain ⟨op, h1, h2, h3, h4⟩ := line_split line hop
        have hsplit := replayLine_split W.logged new (oldText line) (newText line) op (s, log)
          (h3 ▸ hdir) h4 h2
        have htr := translate_split new (oldText line) (newText line) op h4 h2
        rw [← h3] at hsplit htr
        simp only [runLines, List.filter_cons, hdir, if_true, translateAll]
        by_cases hz : (parseSpan (oldText line)).1 = 0 ∨ (parseSpan (newText line)).1 = 0
        · rw [if_pos hz] at hsplit htr
          rw [hsplit, htr]
          simpa using ih s log
        · rw [if_neg hz] at hsplit htr
          simp only [logged_Addr, logged_Write] at hsplit
          by_cases hok : (W.Addr (addressOf op (parseSpan (oldText line))) s).2 = true
          · rw [if_pos hok] at hsplit
            rw [hsplit, htr]
            obtain ⟨T, R, e1, e2, e3⟩ := ih
              (W.Write (contentOf op new (parseSpan (newText line)))
                (W.Addr (addressOf op (parseSpan (oldText line))) s).1).1
              (log ++ [Op.addr (addressOf op (parseSpan (oldText line))),
                Op.data (contentOf op new (parseSpan (newText line)))])
            refine ⟨[Op.addr (addressOf op (parseSpan (oldText line))),
                Op.data (contentOf op new (parseSpan (newText line)))] ++ T, R, ?_, ?_, ?_⟩
            · simpa using e1
            · simp [e2]
            · simpa using e3
          · rw [if_neg hok] at hsplit
            rw [hsplit, htr]
            refine ⟨[Op.addr (addressOf op (parseSpan (oldText line)))],
              Op.data (contentOf op new (parseSpan (newText line))) ::
                translateAll new (rest.filter isDirective), ?_, ?_, ?_⟩
            · simp
            · simp
            · simp
      · have hno : ∀ c ∈ line, isOp c = false := by
          intro c hc
          cases h : isOp c with
          | false => rfl
          | true => exact absurd (List.any_eq_true.2 ⟨c, hc, h⟩) hop
        simp only [runLines, replayLine_noOp W.logged new line (s, log) hdir hno]
        exact ⟨[], translateAll new ((line :: rest).filter isDirective), by simp, by simp,
          by simp⟩
    · have hd : isDirective line = false := by simpa using hdir
      simp only [runLines, replayLine_skip W.logged new line (s, log) hd, List.filter_cons, hd,
        if_true, Bool.false_eq_true, if_false]
      exact ih s log

/-- Recording the operations does not change what the loop body does to the window. -/
theorem replayLine_logged {σ : Type} (W : Win σ) (new line : Bytes) (s : σ) (log : List Op) :
    (gofmt.replayLine W.logged new line (s, log)).1.1 = (gofmt.replayLine W new line s).1 ∧
    (gofmt.replayLine W.logged new line (s, log)).2 = (gofmt.replayLine W new line s).2 := by
  by_cases hdir : isDirective line = true
  · by_cases hop : hasOp line = true
    · obtain ⟨op, _, h2, h3, h4⟩ := line_split line hop
      have e1 := replayLine_split W.logged new (oldText line) (newText line) op (s, log)
        (h3 ▸ hdir) h4 h2
      have e2 := replayLine_split W new (oldText line) (newText line) op s (h3 ▸ hdir) h4 h2
      rw [← h3] at e1 e2
      rw [e1, e2]
      simp only [logged_Addr, logged_Write]
      split
      · exact ⟨rfl, rfl⟩
      · split
        · exact ⟨rfl, rfl⟩
        · exact ⟨rfl, rfl⟩
    · have hno : ∀ c ∈ line, isOp c = false := by
        intro c hc
        cases h : isOp c with
        | false => rfl
        | true => exact absurd (List.any_eq_true.2 ⟨c, hc, h⟩) hop
      rw [replayLine_noOp W.logged new line _ hdir hno, replayLine_noOp W new line _ hdir hno]
      exact ⟨rfl, rfl⟩
  · have hd : isDirective line = false := by simpa using hdir
    rw [replayLine_skip W.logged new line _ hd, replayLine_skip W new line _ hd]
    exact ⟨rfl, rfl⟩

theorem runLines_logged {σ : Type} (W : Win σ) (new : Bytes) (Ls : List Bytes) :
    ∀ (s : σ) (log : List Op),
      (runLines W.logged new Ls (s, log)).1.1 = (runLines W new Ls s).1 ∧
      (runLines W.logged new Ls (s, log)).2 = (runLines W new Ls s).2 := by
  induction Ls with
  | nil => intro s log; exact ⟨rfl, rfl⟩
  | cons line rest ih =>
    intro s log
    obtain ⟨h1, h2⟩ := replayLine_logged W new line s log
    simp only [runLines, h2]
    by_cases hc : (gofmt.replayLine W new line s).2 = true
    · simp only [hc, if_true]
      rw [← h1]
      exact ih (gofmt.replayLine W.logged new line (s, log)).1.1
        (gofmt.replayLine W.logged new line (s, log)).1.2
    · simp only [hc, if_false, Bool.false_eq_true]
      exact ⟨h1, trivial⟩

/-- Recording the operations does not change the window state `replay` ends in, nor the
value it returns. -/
theorem replay_logged {σ : Type} (W : Win σ) (new diff : Bytes) (s : σ) :
    (gofmt.replay W.logged new diff (s, [])).1.1 = (gofmt.replay W new diff s).1 ∧
    (gofmt.replay W.logged new diff (s, [])).2 = (gofmt.replay W new diff s).2 := by
  simp only [gofmt.replay, replayLoop_eq_runLines]
  exact runLines_logged W new _ s []

theorem editStarts_translateAll_sublist (new : Bytes) (Ds : List Bytes) :
    List.Sublist (editStarts (translateAll new Ds))
      (Ds.map (fun l => (parseSpan (oldText l)).1)) := by
  induction Ds with
  | nil => simp [translateAll, editStarts]
  | cons d rest ih =>
    simp only [translateAll, translate, List.map_cons]
    cases hop : opOf d with
    | none => simpa using ih.cons _
    | some op =>
      by_cases hz : (parseSpan (oldText d)).1 = 0 ∨ (parseSpan (newText d)).1 = 0
      · simpa [hz] using ih.cons _
      · simp only [hz, if_false, List.cons_append, List.nil_append, addressOf]
        by_cases ha : op = 'a'
        · simp only [ha, if_true, editStarts]
          exact ih.cons₂ _
        · simp only [ha, if_false, editStarts]
          exact ih.cons₂ _

theorem editStarts_append (T R : List Op) :
    editStarts (T ++ R) = editStarts T ++ editStarts R := by
  induction T with
  | nil => rfl
  | cons o T ih =>
    cases o with
    | addr a => cases a <;> simp [editStarts, ih]
    | data b => simp [editStarts, ih]

/-- C4 as stated fails: every directive line of the summary is well formed and the old
spans ascend, but on a window that rejects the address only the address of `10,12d9` is
issued and the loop returns false; the edits of the translation are not issued. -/
theorem replay_stops_short_of_translation :
    (∀ line ∈ Split (str "3c3\n< c\n---\n> C\n10,12d9\n< x\n< y\n< z\n") '\n',
      isDirective line = true → hasOp line = true) ∧
    translateAll (str "a\nb\nC\n")
        ((Split (str "3c3\n< c\n---\n> C\n10,12d9\n< x\n< y\n< z\n") '\n').filter
          isDirective).reverse =
      [Op.addr (Address.lines 10 12), Op.data [], Op.addr (Address.lines 3 3),
        Op.data (str "C\n")] ∧
    trace Win.addrFails (str "a\nb\nC\n") (str "3c3\n< c\n---\n> C\n10,12d9\n< x\n< y\n< z\n") () =
      [Op.addr (Address.lines 10 12)] ∧
    (gofmt.replay Win.addrFails (str "a\nb\nC\n")
      (str "3c3\n< c\n---\n> C\n10,12d9\n< x\n< y\n< z\n") ()).2 = false := by
  decide

/-- C4, as the code has it. On every window and for every summary, the operations the loop
issues are an initial part of the edits of the directive lines taken from the last line of
the summary to the first, and they are all of those edits whenever the loop returns true.
Hence if the old-span starts of the directives ascend through the summary, the starts of
the addresses issued descend: no edit is issued at a line number greater than that of an
edit issued before it. -/
theorem replay_order (σ : Type) (W : Win σ) (new diff : Bytes) (s : σ) :
    (∃ R : List Op,
      translateAll new ((Split diff '\n').filter isDirective).reverse =
        trace W new diff s ++ R) ∧
    ((gofmt.replay W new diff s).2 = true →
      trace W new diff s = translateAll new ((Split diff '\n').filter isDirective).reverse) ∧
    (List.Pairwise (fun a b => a ≤ b)
        (((Split diff '\n').filter isDirective).map (fun l => (parseSpan (oldText l)).1)) →
      List.Pairwise (fun a b => b ≤ a) (editStarts (trace W new diff s))) := by
  obtain ⟨T, R, e1, e2, e3⟩ := runLines_trace W new (Split diff '\n').reverse s []
  have htrace : trace W new diff s = T := by
    simp only [trace, gofmt.replay, replayLoop_eq_runLines, e1, List.nil_append]
  have hall : translateAll new ((Split diff '\n').filter isDirective).reverse =
      trace W new diff s ++ R := by
    rw [htrace, ← e2, List.filter_reverse]
  refine ⟨⟨R, hall⟩, ?_, ?_⟩
  · intro hret
    have hlog : (runLines W.logged new (Split diff '\n').reverse (s, [])).2 = true := by
      have := (replay_logged W new diff s).2
      simp only [gofmt.replay, replayLoop_eq_runLines] at this hret
      rw [this]; exact hret
    rw [hall, e3 hlog, List.append_nil]
  · intro hasc
    have hsub : List.Sublist (editStarts (trace W new diff s))
        (editStarts (translateAll new ((Split diff '\n').filter isDirective).reverse)) := by
      rw [hall, editStarts_append]
      exact List.sublist_append_left _ _
    refine List.Pairwise.sublist (hsub.trans (editStarts_translateAll_sublist new _)) ?_
    rw [List.map_reverse, List.pairwise_reverse]
    exact hasc

/-- C4 on a line buffer holding `"a\nb\nc\n"`, with the two directives `1c1` and `3c3`: the
replay returns true, the change at line 3 is issued first and the change at line 1 second. -/
theorem replay_order_witness :
    trace Win.buffer (str "A\nb\nC\n") (str "1c1\n< a\n---\n> A\n3c3\n< c\n---\n> C\n")
        (Buffer.mk (str "a\nb\nc\n") 0 0) =
      translateAll (str "A\nb\nC\n")
        ((Split (str "1c1\n< a\n---\n> A\n3c3\n< c\n---\n> C\n") '\n').filter
          isDirective).reverse ∧
    translateAll (str "A\nb\nC\n")
        ((Split (str "1c1\n< a\n---\n> A\n3c3\n< c\n---\n> C\n") '\n').filter
          isDirective).reverse =
      [Op.addr (Address.lines 3 3), Op.data (str "C\n"), Op.addr (Address.lines 1 1),
        Op.data (str "A\n")] ∧
    List.Pairwise (fun a b => b ≤ a)
      (editStarts (trace Win.buffer (str "A\nb\nC\n")
        (str "1c1\n< a\n---\n> A\n3c3\n< c\n---\n> C\n") (Buffer.mk (str "a\nb\nc\n") 0 0))) :=
  ⟨(replay_order Buffer Win.buffer (str "A\nb\nC\n")
      (str "1c1\n< a\n---\n> A\n3c3\n< c\n---\n> C\n") (Buffer.mk (str "a\nb\nc\n") 0 0)).2.1
      (by decide),
    by decide,
    (replay_order Buffer Win.buffer (str "A\nb\nC\n")
      (str "1c1\n< a\n---\n> A\n3c3\n< c\n---\n> C\n") (Buffer.mk (str "a\nb\nc\n") 0 0)).2.2
      (by decide)⟩

/-- C9 as stated fails: `parseSpan("5,3")` is `(5, 3)`, whose start exceeds its end while
neither is 0. -/
theorem parseSpan_unordered :
    parseSpan (str "5,3") = (5, 3) ∧
    ¬ ((parseSpan (str "5,3")).1 ≤ (parseSpan (str "5,3")).2 ∨
        ((parseSpan (str "5,3")).1 = 0 ∧ (parseSpan (str "5,3")).2 = 0)) := by
  decide

/-- C9, as the code has it. For a text made of two integer tokens around a comma,
`parseSpan` returns the two values exactly as written, in either order: so `start ≤ end`
when the first value is not the larger, and `start > end` when it is. For every other text
the returned span has `start ≤ end`, and both numbers are equal for a text without a
comma. -/
theorem parseSpan_order (text : Bytes) :
    (∀ l r : Bytes, text = l ++ ',' :: r → isIntToken l = true → isIntToken r = true →
      parseSpan text = (tokenVal l, tokenVal r)) ∧
    (∀ l r : Bytes, text = l ++ ',' :: r → isIntToken l = true → isIntToken r = true →
      tokenVal r < tokenVal l → (parseSpan text).2 < (parseSpan text).1) ∧
    (∀ l r : Bytes, text = l ++ ',' :: r → isIntToken l = true → isIntToken r = true →
      tokenVal l ≤ tokenVal r → (parseSpan text).1 ≤ (parseSpan text).2) ∧
    ((parseSpan text).1 ≤ (parseSpan text).2 ∨
      ∃ l r : Bytes, text = l ++ ',' :: r ∧ isIntToken l = true ∧ isIntToken r = true ∧
        tokenVal r < tokenVal l ∧ parseSpan text = (tokenVal l, tokenVal r)) ∧
    (',' ∉ text → (parseSpan text).1 = (parseSpan text).2) := by
  refine ⟨?_, ?_, ?_, ?_, ?_⟩
  · intro l r hsplit hl hr
    rw [hsplit, parseSpan_pair l r hl hr]
  · intro l r hsplit hl hr hlt
    rw [hsplit, parseSpan_pair l r hl hr]
    exact hlt
  · intro l r hsplit hl hr hle
    rw [hsplit, parseSpan_pair l r hl hr]
    exact hle
  · by_cases hi : Index text ',' < 0
    · left
      simp only [parseSpan, if_pos hi]
      cases Atoi text <;> simp
    · have hsplit := Index_split text ',' (by omega)
      by_cases ha : isIntToken (List.take (Index text ',').toNat text) = true
      · by_cases hb : isIntToken (List.drop ((Index text ',').toNat + 1) text) = true
        · have hp := parseSpan_pair _ _ ha hb
          rw [← hsplit] at hp
          by_cases hle : tokenVal (List.take (Index text ',').toNat text) ≤
              tokenVal (List.drop ((Index text ',').toNat + 1) text)
          · left; rw [hp]; exact hle
          · right
            exact ⟨_, _, hsplit, ha, hb, by omega, hp⟩
        · left
          simp [parseSpan, hi, Atoi_eq, ha, hb]
      · left
        simp [parseSpan, hi, Atoi_eq, ha]
  · intro hno
    simp only [parseSpan, Index_of_not_mem text ',' hno]
    cases Atoi text <;> simp

/-- C9 at concrete texts: `9,4` is returned as written with its start above its end, `3,5`
is an ordered pair, and `7` gives equal numbers. -/
theorem parseSpan_order_witness :
    parseSpan (str "9,4") = (tokenVal (str "9"), tokenVal (str "4")) ∧
    tokenVal (str "9") = 9 ∧ tokenVal (str "4") = 4 ∧
    (parseSpan (str "9,4")).2 < (parseSpan (str "9,4")).1 ∧
    (parseSpan (str "3,5")).1 ≤ (parseSpan (str "3,5")).2 ∧
    (parseSpan (str "7")).1 = (parseSpan (str "7")).2 :=
  ⟨(parseSpan_order (str "9,4")).1 (str "9") (str "4") (by decide) (by decide) (by decide),
    by decide, by decide,
    (parseSpan_order (str "9,4")).2.1 (str "9") (str "4") (by decide) (by decide) (by decide)
      (by decide),
    (parseSpan_order (str "3,5")).2.2.1 (str "3") (str "5") (by decide) (by decide) (by decide)
      (by decide),
    (parseSpan_order (str "7")).2.2.2.2 (by decide)⟩

/-- C5 at a failing input. For old text `"x\n"` and new text `"y\nx\n"` the diff summary
is `0a1` followed by the detail line `> y`. Replaying it issues no operation to any window
in any state and reports success, so a buffer holding the old text still holds it, and
the old text differs from the new one; on a line buffer the replay of this summary ends
with the old text, while the replays of scenarios 1 and 2 end with their new texts. -/
theorem replay_insert_at_top_is_dropped :
    (∀ (σ : Type) (W : Win σ) (s : σ),
      gofmt.replay W (str "y\nx\n") (str "0a1\n> y\n") s = (s, true) ∧
      trace W (str "y\nx\n") (str "0a1\n> y\n") s = []) ∧
    str "x\n" ≠ str "y\nx\n" ∧
    (gofmt.replay Win.buffer (str "y\nx\n") (str "0a1\n> y\n")
      (Buffer.mk (str "x\n") 0 0)).1.text = str "x\n" ∧
    (gofmt.replay Win.buffer (str "x\nY\nz\n") (str "2c2\n< y\n---\n> Y\n")
      (Buffer.mk (str "x\ny\nz\n") 0 0)).1.text = str "x\nY\nz\n" ∧
    (gofmt.replay Win.buffer (str "x\ny\nz\n") (str "1a2\n> y\n")
      (Buffer.mk (str "x\nz\n") 0 0)).1.text = str "x\ny\nz\n" := by
  refine ⟨?_, by decide, by decide, by decide, by decide⟩
  intro σ W s
  have hsplit : Split (str "0a1\n> y\n") '\n' = [] ++ (str "0" ++ 'a' :: str "1") :: [str "> y", []] := by
    decide
  have hline : ∀ (τ : Type) (V : Win τ) (t : τ),
      gofmt.replayLine V (str "y\nx\n") (str "0" ++ 'a' :: str "1") t = (t, true) := by
    intro τ V t
    rw [replayLine_split V _ (str "0") (str "1") 'a' t (by decide) (by decide) (by decide)]
    simp only [if_pos (show (parseSpan (str "0")).1 = 0 ∨ (parseSpan (str "1")).1 = 0 by decide)]
  have hrest : ∀ (τ : Type) (V : Win τ) (t : τ),
      gofmt.replayLoop V (str "y\nx\n") ([] ++ [str "> y", []]) ([] ++ [str "> y", []]).length t =
        (t, true) := by
    intro τ V t
    simp [gofmt.replayLoop, replayLine_skip V (str "y\nx\n") (str "> y") _ (by decide),
      replayLine_skip V (str "y\nx\n") [] _ (by decide)]
  constructor
  · simp only [gofmt.replay, hsplit]
    rw [replayLoop_skip W _ _ (hline σ W), hrest]
  · simp only [trace, gofmt.replay, hsplit]
    rw [replayLoop_skip W.logged _ _ (hline _ W.logged), hrest]

end Ago
